import Mathlib

/-!
# Verification of the marklassian Markdown-token → ADF converter

Shallow embedding of `src/lib/index.ts` (the token-tree-to-ADF transformation
engine).  The external tokenizer (`marked.lexer`) is out of scope; all
functions below are translated from the TypeScript source and operate on an
explicit token model.  General recursion over the token tree is expressed
with a fuel parameter: every function consumes one unit of fuel per call and
returns a harmless default when fuel runs out; all universal statements
quantify over the fuel.
-/

namespace Marklassian

/-- Attribute values occurring in ADF node/mark attribute maps
(strings and numbers are the only ones the converter produces). -/
inductive AttrVal where
  | str (s : String)
  | nat (n : Nat)
deriving DecidableEq

/-- ADF mark: `{ type: string, attrs?: Record<string, any> }`
(`AdfMark` in the source).  `ty` models the `type` field. -/
structure AdfMark where
  ty : String
  attrs : Option (List (String × AttrVal))
deriving DecidableEq

/-- ADF node (`AdfNode` in the source):
`{ type, attrs?, content?, marks?, text? }`.  `ty` models `type`. -/
inductive AdfNode where
  | mk (ty : String) (attrs : Option (List (String × AttrVal)))
       (content : Option (List AdfNode))
       (marks : Option (List AdfMark))
       (text : Option String)

def AdfNode.ty : AdfNode → String
  | .mk t _ _ _ _ => t

def AdfNode.attrs : AdfNode → Option (List (String × AttrVal))
  | .mk _ a _ _ _ => a

def AdfNode.content : AdfNode → Option (List AdfNode)
  | .mk _ _ c _ _ => c

def AdfNode.marks : AdfNode → Option (List AdfMark)
  | .mk _ _ _ m _ => m

def AdfNode.text : AdfNode → Option String
  | .mk _ _ _ _ t => t

/-- Input token (`RelaxedToken` in the source): a `marked` token together
with the optional `task`/`checked` flags.  Fields that the converter reads
are modelled explicitly; `Option` models a JS field that may be absent
(`text`, `tokens`, `start`, `lang`).  A table's `header` is the list of its
header cells and `rows` the list of body rows, each cell being its list of
nested inline tokens (the only field of a cell the converter reads). -/
inductive Tok where
  | mk (ty : String)
       (text : Option String)
       (tokens : Option (List Tok))
       (depth : Nat)
       (ordered : Bool)
       (start : Option Nat)
       (items : List Tok)
       (task : Bool)
       (checked : Bool)
       (lang : Option String)
       (href : String)
       (header : List (List Tok))
       (rows : List (List (List Tok)))

def Tok.ty : Tok → String
  | .mk t _ _ _ _ _ _ _ _ _ _ _ _ => t

def Tok.text : Tok → Option String
  | .mk _ t _ _ _ _ _ _ _ _ _ _ _ => t

def Tok.tokens : Tok → Option (List Tok)
  | .mk _ _ t _ _ _ _ _ _ _ _ _ _ => t

def Tok.depth : Tok → Nat
  | .mk _ _ _ d _ _ _ _ _ _ _ _ _ => d

def Tok.ordered : Tok → Bool
  | .mk _ _ _ _ o _ _ _ _ _ _ _ _ => o

def Tok.start : Tok → Option Nat
  | .mk _ _ _ _ _ s _ _ _ _ _ _ _ => s

def Tok.items : Tok → List Tok
  | .mk _ _ _ _ _ _ i _ _ _ _ _ _ => i

def Tok.task : Tok → Bool
  | .mk _ _ _ _ _ _ _ t _ _ _ _ _ => t

def Tok.checked : Tok → Bool
  | .mk _ _ _ _ _ _ _ _ c _ _ _ _ => c

def Tok.lang : Tok → Option String
  | .mk _ _ _ _ _ _ _ _ _ l _ _ _ => l

def Tok.href : Tok → String
  | .mk _ _ _ _ _ _ _ _ _ _ h _ _ => h

def Tok.header : Tok → List (List Tok)
  | .mk _ _ _ _ _ _ _ _ _ _ _ h _ => h

def Tok.rows : Tok → List (List (List Tok))
  | .mk _ _ _ _ _ _ _ _ _ _ _ _ r => r

/-- `generateLocalId` in the source returns a random UUID v4 string.  The
claims under verification never depend on identifier values (the spec only
requires uniqueness-in-practice, which is outside the embedded model), so
the generator is abstracted as a constant. -/
def generateLocalId : Unit → String := fun _ => "local-id"

/-- JavaScript regular-expression whitespace class `\s`
(as matched by `/\s+/` in `getSafeText`). -/
def isJsSpace (c : Char) : Bool :=
  c == ' ' || c == '\t' || c == '\n' || c == '\x0b' || c == '\x0c' || c == '\r' ||
  c == '\u00A0' || c == '\u1680' ||
  (0x2000 ≤ c.toNat && c.toNat ≤ 0x200A) ||
  c == '\u2028' || c == '\u2029' || c == '\u202F' || c == '\u205F' ||
  c == '\u3000' || c == '\uFEFF'

/-- `.replace(/\n$/, "")` — remove a single trailing newline. -/
def stripTrailingNewline (l : List Char) : List Char :=
  if l.getLast? == some '\n' then l.dropLast else l

/-- `.replace(/\n/g, " ")` — replace every newline by a space. -/
def replaceNewlines (l : List Char) : List Char :=
  l.map (fun c => if c == '\n' then ' ' else c)

/-- `.replace(/\s+/g, " ")` — collapse each maximal run of whitespace
characters to a single space. -/
def collapseWhitespace : List Char → List Char
  | [] => []
  | [c] => if isJsSpace c then [' '] else [c]
  | a :: b :: rest =>
    if isJsSpace a && isJsSpace b then collapseWhitespace (b :: rest)
    else (if isJsSpace a then ' ' else a) :: collapseWhitespace (b :: rest)

/-- The normalization chain applied to literal text in `getSafeText`:
`token.text.replace(/\n$/, "").replace(/\n/g, " ").replace(/\s+/g, " ")`. -/
def normalizeText (s : String) : String :=
  String.mk (collapseWhitespace (replaceNewlines (stripTrailingNewline s.data)))

/-- The `if ("text" in token) ... return ""` tail of `getSafeText`:
normalize the token's own literal text, returning `""` when the token has
no `text` field. -/
def normalizeOwnText (token : Tok) : String :=
  match token.text with
  | some s => normalizeText s
  | none => ""

/-- `getSafeText`: recursively unwrap a token whose `tokens` array has
exactly one entry that itself carries a `text` field; at the end normalize
the literal text. -/
def getSafeText : Nat → Tok → String
  | 0, _ => ""
  | fuel + 1, token =>
    match token.tokens with
    | some [t0] => if t0.text.isSome then getSafeText fuel t0 else normalizeOwnText token
    | _ => normalizeOwnText token

/-- Whether the accumulated mark map already has a mark of the given type
(JS: truthiness of `marks.em`, `marks.code`, ...).  The map is modelled as
an insertion-ordered association list keyed by mark type, matching the
insertion-order semantics of a JS object and of `Object.values`. -/
def hasMarkType (marks : List AdfMark) (ty : String) : Bool :=
  marks.any (fun m => m.ty == ty)

/-- `if (!marks.k) marks.k = v` — add a mark only if its type is absent. -/
def addMarkIfAbsent (marks : List AdfMark) (m : AdfMark) : List AdfMark :=
  if hasMarkType marks m.ty then marks else marks ++ [m]

/-- `marks.link = v` — unconditional assignment: overwrite in place when the
key exists (keeping its position, as JS objects do), otherwise append. -/
def setMarkOverwrite (marks : List AdfMark) (m : AdfMark) : List AdfMark :=
  if hasMarkType marks m.ty then
    marks.map (fun x => if x.ty == m.ty then m else x)
  else marks ++ [m]

/-- `getMarks`: accumulate marks for the token chain, recursing while the
token has exactly one nested token; on stopping, return `Object.values` of
the map, filtered down to link/code when a code mark is present. -/
def getMarks : Nat → Tok → List AdfMark → List AdfMark
  | 0, _, _ => []
  | fuel + 1, token, marks =>
    let marks := if token.ty == "em" then addMarkIfAbsent marks ⟨"em", none⟩ else marks
    let marks := if token.ty == "strong" then addMarkIfAbsent marks ⟨"strong", none⟩ else marks
    let marks := if token.ty == "del" then addMarkIfAbsent marks ⟨"strike", none⟩ else marks
    let marks := if token.ty == "link" then
        setMarkOverwrite marks ⟨"link", some [("href", AttrVal.str token.href)]⟩
      else marks
    let marks := if token.ty == "codespan" then addMarkIfAbsent marks ⟨"code", none⟩ else marks
    match token.tokens with
    | some [t0] => getMarks fuel t0 marks
    | _ =>
      if hasMarkType marks "code" then
        marks.filter (fun m => m.ty == "link" || m.ty == "code")
      else marks

/-- `token.start || 1` — the declared start number of an ordered list with
JS truthiness: an absent start and a start of `0` both fall back to `1`. -/
def startOr1 : Option Nat → Nat
  | some n => if n == 0 then 1 else n
  | none => 1

/-- `token.lang ? ... : ...` — JS truthiness of the declared language:
an absent language and the empty string are both falsy. -/
def langTruthy : Option String → Bool
  | some s => s != ""
  | none => false

/-- The repeated six-way check for tokens accumulated into an inline run in
`processListItem`/`processTaskItem`:
`text | em | strong | del | link | codespan`. -/
def isInlineRunToken (t : Tok) : Bool :=
  t.ty == "text" || t.ty == "em" || t.ty == "strong" ||
  t.ty == "del" || t.ty == "link" || t.ty == "codespan"

/-- `createMediaNode`. -/
def createMediaNode (token : Tok) : AdfNode :=
  AdfNode.mk "mediaSingle" (some [("layout", AttrVal.str "center")])
    (some [AdfNode.mk "media"
      (some [("type", AttrVal.str "external"),
             ("url", AttrVal.str token.href),
             ("alt", AttrVal.str (token.text.getD ""))])
      none none none])
    none none

/-- An entry of the interleaved sequence produced by
`processTaskListItemsInterleaved`:
`{ type: 'taskItem' | 'extracted'; node: AdfNode }`.
`ty` models the `type` tag. -/
structure TaggedNode where
  ty : String
  node : AdfNode

/-- The `flushTaskItems` closure of
`processTaskListItemsWithExtractionPreservingOrder`: wrap the pending
consecutive task items (if any) into one `taskList` container. -/
def flushTaskItems (current : List AdfNode) : List AdfNode :=
  if current.length > 0 then
    [AdfNode.mk "taskList" (some [("localId", AttrVal.str (generateLocalId ()))])
      (some current) none none]
  else []

/-- The regrouping loop of
`processTaskListItemsWithExtractionPreservingOrder` (Phase 2): accumulate
consecutive `taskItem`-tagged nodes, flushing them as one `taskList` before
each extracted node and at the end. -/
def regroupTaskItems (current : List AdfNode) : List TaggedNode → List AdfNode
  | [] => flushTaskItems current
  | entry :: rest =>
    if entry.ty == "taskItem" then regroupTaskItems (current ++ [entry.node]) rest
    else flushTaskItems current ++ entry.node :: regroupTaskItems [] rest

mutual

/-- `tokensToAdf`: the Block Transformer — dispatch each block token by
`type`, drop unrecognized tokens, flatten the per-token node lists. -/
def tokensToAdf : Nat → Option (List Tok) → List AdfNode
  | 0, _ => []
  | _ + 1, none => []
  | fuel + 1, some tokens =>
    (tokens.map (fun token =>
      match token.ty with
      | "paragraph" => processParagraph fuel token.tokens
      | "heading" =>
        [AdfNode.mk "heading" (some [("level", AttrVal.nat token.depth)])
          (some (inlineToAdf fuel token.tokens)) none none]
      | "list" =>
        if token.items.all (fun item => item.task) &&
           token.items.any (fun item => item.task) then
          processTaskListItemsWithExtractionPreservingOrder fuel token.items
        else
          [AdfNode.mk (if token.ordered then "orderedList" else "bulletList")
            (if token.ordered then some [("order", AttrVal.nat (startOr1 token.start))] else none)
            (some (token.items.map (fun item => processListItem fuel item))) none none]
      | "code" =>
        [AdfNode.mk "codeBlock"
          (if langTruthy token.lang
           then some [("language", AttrVal.str (token.lang.getD ""))] else none)
          (some [AdfNode.mk "text" none none none (some (token.text.getD ""))]) none none]
      | "blockquote" =>
        [AdfNode.mk "blockquote" none (some (tokensToAdf fuel token.tokens)) none none]
      | "hr" => [AdfNode.mk "rule" none none none none]
      | "table" => [processTable fuel token]
      | _ => [])).flatten

/-- `processParagraph`: the Paragraph/Media Splitter — an inline run that is
exactly one image becomes a bare media node; otherwise scan the run,
splitting around images. -/
def processParagraph : Nat → Option (List Tok) → List AdfNode
  | 0, _ => []
  | _ + 1, none => []
  | fuel + 1, some tokens =>
    match tokens with
    | [t] =>
      if t.ty == "image" then [createMediaNode t] else paragraphLoop fuel [] [t]
    | _ => paragraphLoop fuel [] tokens

/-- The scanning loop of `processParagraph`: `pending` is
`currentParagraphTokens`; flush it as a `paragraph` node before each image
and at the end. -/
def paragraphLoop : Nat → List Tok → List Tok → List AdfNode
  | 0, _, _ => []
  | fuel + 1, pending, [] =>
    if pending.isEmpty then []
    else [AdfNode.mk "paragraph" none (some (inlineToAdf fuel (some pending))) none none]
  | fuel + 1, pending, token :: rest =>
    if token.ty == "image" then
      (if pending.isEmpty then []
       else [AdfNode.mk "paragraph" none (some (inlineToAdf fuel (some pending))) none none]) ++
      createMediaNode token :: paragraphLoop fuel [] rest
    else paragraphLoop fuel (pending ++ [token]) rest

/-- `processTable`: the Table Transformer — header row emitted only when at
least one header cell exists; every body cell with empty processed content
is padded with a single-space paragraph. -/
def processTable : Nat → Tok → AdfNode
  | 0, _ => AdfNode.mk "table" none (some []) none none
  | fuel + 1, token =>
    let headers := token.header.map (fun cell =>
      AdfNode.mk "tableHeader" none (some (processParagraph fuel (some cell))) none none)
    let rows := token.rows.map (fun row =>
      AdfNode.mk "tableRow" none (some (row.map (fun cell =>
        let content := processParagraph fuel (some cell)
        let content := if content.length == 0 then
            content ++ [AdfNode.mk "paragraph" none
              (some [AdfNode.mk "text" none none none (some " ")]) none none]
          else content
        AdfNode.mk "tableCell" none (some content) none none))) none none)
    let content := if headers.length != 0 then
        [AdfNode.mk "tableRow" none (some headers) none none]
      else []
    AdfNode.mk "table" none (some (content ++ rows)) none none

/-- `processListItem`: the List Item Processor — build one `listItem` from
one non-task list item. -/
def processListItem : Nat → Tok → AdfNode
  | 0, _ => AdfNode.mk "listItem" none (some []) none none
  | fuel + 1, item =>
    AdfNode.mk "listItem" none (some (listItemLoop fuel [] (item.tokens.getD []))) none none

/-- The scanning loop of `processListItem`: accumulate consecutive
inline-bearing tokens into `pending`, flushing them as a `paragraph` before
each non-inline token and at the end; a nested list is classified task vs.
ordinary in place, other non-inline tokens delegate to `tokensToAdf`. -/
def listItemLoop : Nat → List Tok → List Tok → List AdfNode
  | 0, _, _ => []
  | fuel + 1, pending, [] =>
    if pending.isEmpty then []
    else [AdfNode.mk "paragraph" none (some (inlineToAdf fuel (some pending))) none none]
  | fuel + 1, pending, token :: rest =>
    if isInlineRunToken token then listItemLoop fuel (pending ++ [token]) rest
    else
      (if pending.isEmpty then []
       else [AdfNode.mk "paragraph" none (some (inlineToAdf fuel (some pending))) none none]) ++
      (if token.ty == "list" then
        (if token.items.all (fun nested => nested.task) &&
            token.items.any (fun nested => nested.task) then
          [AdfNode.mk "taskList" (some [("localId", AttrVal.str (generateLocalId ()))])
            (some (token.items.map (fun nested => processTaskItem fuel nested))) none none]
        else
          [AdfNode.mk (if token.ordered then "orderedList" else "bulletList")
            (if token.ordered then some [("order", AttrVal.nat (startOr1 token.start))] else none)
            (some (token.items.map (fun nested => processListItem fuel nested))) none none])
      else tokensToAdf fuel (some [token])) ++
      listItemLoop fuel [] rest

/-- `processTaskItem`: the Task Item Processor — inline runs are appended
directly (no paragraph wrapper); nested lists are skipped here. -/
def processTaskItem : Nat → Tok → AdfNode
  | 0, item =>
    AdfNode.mk "taskItem"
      (some [("localId", AttrVal.str (generateLocalId ())),
             ("state", AttrVal.str (if item.checked then "DONE" else "TODO"))])
      (some []) none none
  | fuel + 1, item =>
    AdfNode.mk "taskItem"
      (some [("localId", AttrVal.str (generateLocalId ())),
             ("state", AttrVal.str (if item.checked then "DONE" else "TODO"))])
      (some (taskItemLoop fuel [] (item.tokens.getD []))) none none

/-- The scanning loop of `processTaskItem`. -/
def taskItemLoop : Nat → List Tok → List Tok → List AdfNode
  | 0, _, _ => []
  | fuel + 1, pending, [] =>
    if pending.isEmpty then [] else inlineToAdf fuel (some pending)
  | fuel + 1, pending, token :: rest =>
    if isInlineRunToken token then taskItemLoop fuel (pending ++ [token]) rest
    else
      (if pending.isEmpty then [] else inlineToAdf fuel (some pending)) ++
      (if token.ty != "list" then tokensToAdf fuel (some [token]) else []) ++
      taskItemLoop fuel [] rest

/-- `processTaskListItemsInterleaved` (Phase 1 of the Task-List Extraction
Algorithm): flatten the item sequence into tagged entries in document
order. -/
def processTaskListItemsInterleaved : Nat → List Tok → List TaggedNode
  | 0, _ => []
  | fuel + 1, items => interleavedItemsLoop fuel items

/-- The outer loop of `processTaskListItemsInterleaved` over the items. -/
def interleavedItemsLoop : Nat → List Tok → List TaggedNode
  | 0, _ => []
  | _ + 1, [] => []
  | fuel + 1, item :: rest =>
    TaggedNode.mk "taskItem" (processTaskItem fuel item) ::
    (interleavedNestedScan fuel (item.tokens.getD []) ++ interleavedItemsLoop fuel rest)

/-- The inner loop of `processTaskListItemsInterleaved` over one item's own
tokens, extracting nested lists right after their parent task item: a
nested task list stays `taskItem`-tagged (with only the recursion's
`taskItem`-tagged nodes as its content, the `extracted` ones bubbling up);
a nested ordinary list is tagged `extracted`. -/
def interleavedNestedScan : Nat → List Tok → List TaggedNode
  | 0, _ => []
  | _ + 1, [] => []
  | fuel + 1, token :: rest =>
    (if token.ty == "list" then
      (if token.items.all (fun nested => nested.task) &&
          token.items.any (fun nested => nested.task) then
        let nested := processTaskListItemsInterleaved fuel token.items
        let nestedTaskItems :=
          (nested.filter (fun n => n.ty == "taskItem")).map (fun n => n.node)
        TaggedNode.mk "taskItem"
          (AdfNode.mk "taskList" (some [("localId", AttrVal.str (generateLocalId ()))])
            (some nestedTaskItems) none none) ::
        nested.filter (fun n => n.ty == "extracted")
      else
        [TaggedNode.mk "extracted"
          (AdfNode.mk (if token.ordered then "orderedList" else "bulletList")
            (if token.ordered then some [("order", AttrVal.nat (startOr1 token.start))] else none)
            (some (token.items.map (fun nested => processListItem fuel nested))) none none)])
    else []) ++ interleavedNestedScan fuel rest

/-- `processTaskListItemsWithExtractionPreservingOrder`: Phase 1 then
Phase 2 — group consecutive `taskItem`-tagged nodes into `taskList`
containers, keeping extracted lists in their document position. -/
def processTaskListItemsWithExtractionPreservingOrder : Nat → List Tok → List AdfNode
  | 0, _ => []
  | fuel + 1, items => regroupTaskItems [] (processTaskListItemsInterleaved fuel items)

/-- `inlineToAdf`: the Inline Content Builder — flatten inline tokens into
text/hardBreak nodes and filter out text nodes with empty text. -/
def inlineToAdf : Nat → Option (List Tok) → List AdfNode
  | 0, _ => []
  | _ + 1, none => []
  | fuel + 1, some tokens =>
    ((tokens.map (fun token =>
      match token.ty with
      | "text" =>
        match token.tokens with
        | some ts => inlineToAdf fuel (some ts)
        | none => [AdfNode.mk "text" none none none (some (getSafeText fuel token))]
      | "em" =>
        (token.tokens.getD []).map (fun t =>
          AdfNode.mk "text" none none (some (getMarks fuel t [⟨"em", none⟩]))
            (some (getSafeText fuel t)))
      | "strong" =>
        (token.tokens.getD []).map (fun t =>
          AdfNode.mk "text" none none (some (getMarks fuel t [⟨"strong", none⟩]))
            (some (getSafeText fuel t)))
      | "del" =>
        (token.tokens.getD []).map (fun t =>
          AdfNode.mk "text" none none (some (getMarks fuel t [⟨"strike", none⟩]))
            (some (getSafeText fuel t)))
      | "link" =>
        [AdfNode.mk "text" none none (some (getMarks fuel token []))
          (some (getSafeText fuel token))]
      | "codespan" =>
        [AdfNode.mk "text" none none (some (getMarks fuel token []))
          (some (getSafeText fuel token))]
      | "br" => [AdfNode.mk "hardBreak" none none none none]
      | _ => [])).flatten).filter
      (fun node => !(node.ty == "text" && node.text.getD "" == ""))

end

/-! ## Traversal of produced documents and schema predicates -/

mutual

/-- `p` holds of this node and (unless `skip` cuts the node off) of every
node reachable through `content`. -/
def allNodes (skip p : AdfNode → Bool) : AdfNode → Bool
  | .mk ty attrs none marks text => p (.mk ty attrs none marks text)
  | .mk ty attrs (some l) marks text =>
    p (.mk ty attrs (some l) marks text) &&
    (skip (.mk ty attrs (some l) marks text) || allNodesList skip p l)

/-- `allNodes` over a sequence of sibling nodes. -/
def allNodesList (skip p : AdfNode → Bool) : List AdfNode → Bool
  | [] => true
  | n :: ns => allNodes skip p n && allNodesList skip p ns

end

/-- Traverse the whole tree. -/
def noSkip : AdfNode → Bool := fun _ => false

/-- Stop the traversal below `codeBlock` nodes. -/
def skipCodeBlock : AdfNode → Bool := fun n => n.ty == "codeBlock"

/-- A node allowed as a direct child of a `taskList` container:
`taskItem` or a nested `taskList`. -/
def taskListChildOk (c : AdfNode) : Bool :=
  c.ty == "taskItem" || c.ty == "taskList"

/-- Shallow form of the task-list containment invariant: if this node is a
`taskList`, its direct children are all `taskItem`/`taskList`. -/
def taskListOkShallow (n : AdfNode) : Bool :=
  !(n.ty == "taskList") || (n.content.getD []).all taskListChildOk

/-- At most one mark per mark type in a marks array. -/
def distinctMarkTypes : List AdfMark → Bool
  | [] => true
  | m :: ms => !(hasMarkType ms m.ty) && distinctMarkTypes ms

/-- The mark-array invariant for one marks array: types are pairwise
distinct, and a `code` mark co-occurs only with `link` marks. -/
def marksListOk (ms : List AdfMark) : Bool :=
  distinctMarkTypes ms &&
  (!(hasMarkType ms "code") || ms.all (fun m => m.ty == "code" || m.ty == "link"))

/-- Shallow form of the mark-array invariant on a node. -/
def marksOkShallow (n : AdfNode) : Bool :=
  match n.marks with
  | none => true
  | some ms => marksListOk ms

/-- The two structural invariants checked together during the main
induction: task-list containment and mark-array well-formedness. -/
def pStructural (n : AdfNode) : Bool :=
  taskListOkShallow n && marksOkShallow n

/-- Shallow form of the no-empty-text invariant: this node is not a text
node whose text is the empty string. -/
def textNotEmpty (n : AdfNode) : Bool :=
  !(n.ty == "text" && n.text == some "")

/-- Invariant carried by the entries of the interleaved sequence: the node
satisfies the structural invariants, and a `taskItem`-tagged entry holds a
node that may legally sit inside a `taskList` container. -/
def taggedOk (e : TaggedNode) : Bool :=
  allNodes noSkip pStructural e.node &&
  (!(e.ty == "taskItem") || taskListChildOk e.node)

/-! ## Concrete tokens for worked examples, witnesses and counterexamples -/

/-- A plain literal text token. -/
def textTok (s : String) : Tok :=
  .mk "text" (some s) none 0 false none [] false false none "" [] []

/-- A task-flagged list item (`task: true`) with the given nested tokens. -/
def taskItemTok (checked : Bool) (toks : List Tok) : Tok :=
  .mk "list_item" none (some toks) 0 false none [] true checked none "" [] []

/-- An ordinary (non-task) list item with the given nested tokens. -/
def plainItemTok (toks : List Tok) : Tok :=
  .mk "list_item" none (some toks) 0 false none [] false false none "" [] []

/-- An unordered list token with the given items. -/
def bulletListTok (items : List Tok) : Tok :=
  .mk "list" none none 0 false none items false false none "" [] []

/-- An ordered list token with the given declared start and items. -/
def orderedListTok (s : Option Nat) (items : List Tok) : Tok :=
  .mk "list" none none 0 true s items false false none "" [] []

/-- A code-block token with the given declared language and literal text. -/
def codeTok (lang : Option String) (s : String) : Tok :=
  .mk "code" (some s) none 0 false none [] false false lang "" [] []

/-- An image token with the given target URL and display text. -/
def imageTok (href s : String) : Tok :=
  .mk "image" (some s) none 0 false none [] false false none href [] []

/-- A table token with the given header cells and body rows. -/
def tableTok (header : List (List Tok)) (rows : List (List (List Tok))) : Tok :=
  .mk "table" none none 0 false none [] false false none "" header rows

/-- Output text node with no marks. -/
def tTextNode (s : String) : AdfNode := AdfNode.mk "text" none none none (some s)

/-- Output paragraph node. -/
def tPara (ns : List AdfNode) : AdfNode := AdfNode.mk "paragraph" none (some ns) none none

/-- Output task item in the given state. -/
def tTaskItem (st : String) (ns : List AdfNode) : AdfNode :=
  AdfNode.mk "taskItem" (some [("localId", .str "local-id"), ("state", .str st)])
    (some ns) none none

/-- Output task list container. -/
def tTaskList (ns : List AdfNode) : AdfNode :=
  AdfNode.mk "taskList" (some [("localId", .str "local-id")]) (some ns) none none

/-- Output ordinary list item. -/
def tListItem (ns : List AdfNode) : AdfNode := AdfNode.mk "listItem" none (some ns) none none

/-! ## Induction statements and predicate forms used by the proofs -/

/-- Combined induction statement: at a given fuel, every producing function
emits only nodes satisfying the structural invariants, and the interleaved
sequences satisfy the tagged invariant. -/
def StructuralInv (fuel : Nat) : Prop :=
  (∀ toks, allNodesList noSkip pStructural (tokensToAdf fuel toks) = true) ∧
  (∀ toks, allNodesList noSkip pStructural (processParagraph fuel toks) = true) ∧
  (∀ pending rest, allNodesList noSkip pStructural (paragraphLoop fuel pending rest) = true) ∧
  (∀ token, allNodes noSkip pStructural (processTable fuel token) = true) ∧
  (∀ item, allNodes noSkip pStructural (processListItem fuel item) = true) ∧
  (∀ pending rest, allNodesList noSkip pStructural (listItemLoop fuel pending rest) = true) ∧
  (∀ item, allNodes noSkip pStructural (processTaskItem fuel item) = true) ∧
  (∀ pending rest, allNodesList noSkip pStructural (taskItemLoop fuel pending rest) = true) ∧
  (∀ items, (processTaskListItemsInterleaved fuel items).all taggedOk = true) ∧
  (∀ items, (interleavedItemsLoop fuel items).all taggedOk = true) ∧
  (∀ toks, (interleavedNestedScan fuel toks).all taggedOk = true) ∧
  (∀ items, allNodesList noSkip pStructural
    (processTaskListItemsWithExtractionPreservingOrder fuel items) = true) ∧
  (∀ toks, allNodesList noSkip pStructural (inlineToAdf fuel toks) = true)

/-- Combined induction statement for the no-empty-text invariant: outside
of `codeBlock` content, no producing function ever emits a text node whose
text is the empty string. -/
def NoEmptyTextInv (fuel : Nat) : Prop :=
  (∀ toks, allNodesList skipCodeBlock textNotEmpty (tokensToAdf fuel toks) = true) ∧
  (∀ toks, allNodesList skipCodeBlock textNotEmpty (processParagraph fuel toks) = true) ∧
  (∀ pending rest, allNodesList skipCodeBlock textNotEmpty (paragraphLoop fuel pending rest) = true) ∧
  (∀ token, allNodes skipCodeBlock textNotEmpty (processTable fuel token) = true) ∧
  (∀ item, allNodes skipCodeBlock textNotEmpty (processListItem fuel item) = true) ∧
  (∀ pending rest, allNodesList skipCodeBlock textNotEmpty (listItemLoop fuel pending rest) = true) ∧
  (∀ item, allNodes skipCodeBlock textNotEmpty (processTaskItem fuel item) = true) ∧
  (∀ pending rest, allNodesList skipCodeBlock textNotEmpty (taskItemLoop fuel pending rest) = true) ∧
  (∀ items, (processTaskListItemsInterleaved fuel items).all
    (fun e => allNodes skipCodeBlock textNotEmpty e.node) = true) ∧
  (∀ items, (interleavedItemsLoop fuel items).all
    (fun e => allNodes skipCodeBlock textNotEmpty e.node) = true) ∧
  (∀ toks, (interleavedNestedScan fuel toks).all
    (fun e => allNodes skipCodeBlock textNotEmpty e.node) = true) ∧
  (∀ items, allNodesList skipCodeBlock textNotEmpty
    (processTaskListItemsWithExtractionPreservingOrder fuel items) = true) ∧
  (∀ toks, allNodesList skipCodeBlock textNotEmpty (inlineToAdf fuel toks) = true)

/-- Normal form produced by the whitespace collapse: every whitespace
character is a plain space, and no two adjacent characters are both
whitespace. -/
def normedB : List Char → Bool
  | [] => true
  | [c] => !(isJsSpace c) || c == ' '
  | a :: b :: rest =>
    ((!(isJsSpace a) || a == ' ') && !(isJsSpace a && isJsSpace b)) && normedB (b :: rest)

/-- Text contains no newline character. -/
def noNewlineB (s : String) : Bool := s.data.all (fun c => !(c == '\n'))

/-! ## Basic traversal lemmas -/

theorem allNodes_eq (s p : AdfNode → Bool) (n : AdfNode) :
    allNodes s p n = (p n && (s n || allNodesList s p (n.content.getD []))) := by
  cases n with
  | mk ty attrs content marks text =>
    cases content <;> simp [allNodes, AdfNode.content, allNodesList]

@[simp] theorem allNodesList_nil (s p : AdfNode → Bool) :
    allNodesList s p [] = true := rfl

@[simp] theorem allNodesList_cons (s p : AdfNode → Bool) (n : AdfNode) (ns : List AdfNode) :
    allNodesList s p (n :: ns) = (allNodes s p n && allNodesList s p ns) := rfl

theorem allNodesList_eq_all (s p : AdfNode → Bool) (l : List AdfNode) :
    allNodesList s p l = l.all (allNodes s p) := by
  induction l with
  | nil => rfl
  | cons n ns ih => simp [allNodesList, ih]

theorem allNodesList_append (s p : AdfNode → Bool) (l1 l2 : List AdfNode) :
    allNodesList s p (l1 ++ l2) = (allNodesList s p l1 && allNodesList s p l2) := by
  simp [allNodesList_eq_all]

mutual

theorem allNodes_mono {p q : AdfNode → Bool} (s : AdfNode → Bool)
    (hpq : ∀ m, p m = true → q m = true) :
    ∀ n : AdfNode, allNodes s p n = true → allNodes s q n = true
  | .mk ty attrs none marks text => by
    simp only [allNodes]
    exact hpq _
  | .mk ty attrs (some l) marks text => by
    simp only [allNodes, Bool.and_eq_true, Bool.or_eq_true]
    rintro ⟨h1, h2 | h2⟩
    · exact ⟨hpq _ h1, Or.inl h2⟩
    · exact ⟨hpq _ h1, Or.inr (allNodesList_mono s hpq l h2)⟩

theorem allNodesList_mono {p q : AdfNode → Bool} (s : AdfNode → Bool)
    (hpq : ∀ m, p m = true → q m = true) :
    ∀ l : List AdfNode, allNodesList s p l = true → allNodesList s q l = true
  | [] => by simp
  | n :: ns => by
    simp only [allNodesList_cons, Bool.and_eq_true]
    rintro ⟨h1, h2⟩
    exact ⟨allNodes_mono s hpq n h1, allNodesList_mono s hpq ns h2⟩

end

/-! ## Mark-resolver lemmas -/

theorem hasMarkType_append (ms1 ms2 : List AdfMark) (t : String) :
    hasMarkType (ms1 ++ ms2) t = (hasMarkType ms1 t || hasMarkType ms2 t) := by
  simp [hasMarkType]

theorem distinct_append_single {ms : List AdfMark} {m : AdfMark}
    (hd : distinctMarkTypes ms = true) (hm : hasMarkType ms m.ty = false) :
    distinctMarkTypes (ms ++ [m]) = true := by
  induction ms with
  | nil => simp [distinctMarkTypes, hasMarkType]
  | cons x xs ih =>
    simp only [hasMarkType, List.any_cons, Bool.or_eq_false_iff] at hm
    simp only [distinctMarkTypes, Bool.and_eq_true, Bool.not_eq_true'] at hd
    simp only [List.cons_append, distinctMarkTypes, Bool.and_eq_true, Bool.not_eq_true']
    refine ⟨?_, ih hd.2 hm.2⟩
    simp only [List.append_eq]
    rw [hasMarkType_append]
    simp only [Bool.or_eq_false_iff]
    refine ⟨hd.1, ?_⟩
    have h1 : x.ty ≠ m.ty := by simpa using hm.1
    simp only [hasMarkType, List.any_cons, List.any_nil, Bool.or_false]
    simpa using fun h : m.ty = x.ty => h1 h.symm

theorem distinct_addMarkIfAbsent {ms : List AdfMark} (m : AdfMark)
    (hd : distinctMarkTypes ms = true) :
    distinctMarkTypes (addMarkIfAbsent ms m) = true := by
  unfold addMarkIfAbsent
  by_cases h : hasMarkType ms m.ty = true
  · simp [h, hd]
  · simp only [Bool.not_eq_true] at h
    simp [h, distinct_append_single hd h]

theorem hasMarkType_map_ty_preserving {f : AdfMark → AdfMark}
    (hf : ∀ x, (f x).ty = x.ty) (ms : List AdfMark) (t : String) :
    hasMarkType (ms.map f) t = hasMarkType ms t := by
  induction ms with
  | nil => rfl
  | cons x xs ih => simp [hasMarkType, List.any_cons, hf x, ih, hasMarkType] at ih ⊢; rw [ih]

theorem distinct_map_ty_preserving {f : AdfMark → AdfMark}
    (hf : ∀ x, (f x).ty = x.ty) (ms : List AdfMark)
    (hd : distinctMarkTypes ms = true) :
    distinctMarkTypes (ms.map f) = true := by
  induction ms with
  | nil => rfl
  | cons x xs ih =>
    simp only [distinctMarkTypes, Bool.and_eq_true] at hd
    simp only [List.map_cons, distinctMarkTypes, Bool.and_eq_true]
    refine ⟨?_, ih hd.2⟩
    rw [hasMarkType_map_ty_preserving hf, hf x]
    simpa using hd.1

theorem distinct_setMarkOverwrite {ms : List AdfMark} (m : AdfMark)
    (hd : distinctMarkTypes ms = true) :
    distinctMarkTypes (setMarkOverwrite ms m) = true := by
  unfold setMarkOverwrite
  by_cases h : hasMarkType ms m.ty = true
  · simp only [h, if_true]
    refine distinct_map_ty_preserving ?_ ms hd
    intro x
    by_cases hx : x.ty == m.ty
    · simp only [hx, if_true]
      simp only [beq_iff_eq] at hx
      exact hx.symm
    · simp [hx]
  · simp only [Bool.not_eq_true] at h
    simp [h, distinct_append_single hd h]

theorem hasMarkType_filter {ms : List AdfMark} {q : AdfMark → Bool} {t : String}
    (h : hasMarkType (ms.filter q) t = true) : hasMarkType ms t = true := by
  simp only [hasMarkType, List.any_eq_true] at h ⊢
  obtain ⟨m, hm, hmt⟩ := h
  exact ⟨m, List.mem_of_mem_filter hm, hmt⟩

theorem distinct_filter {ms : List AdfMark} (q : AdfMark → Bool)
    (hd : distinctMarkTypes ms = true) :
    distinctMarkTypes (ms.filter q) = true := by
  induction ms with
  | nil => rfl
  | cons x xs ih =>
    simp only [distinctMarkTypes, Bool.and_eq_true] at hd
    by_cases hq : q x
    · simp only [List.filter_cons, hq, if_true, distinctMarkTypes, Bool.and_eq_true]
      refine ⟨?_, ih hd.2⟩
      have := hd.1
      simp only [Bool.not_eq_true'] at this ⊢
      by_cases hx : hasMarkType (xs.filter q) x.ty = true
      · rw [hasMarkType_filter hx] at this
        exact absurd this (by simp)
      · simpa using hx
    · simp only [List.filter_cons, hq, if_false]
      exact ih hd.2

theorem all_filter_self (q : AdfMark → Bool) (ms : List AdfMark) :
    (ms.filter q).all q = true := by
  simp only [List.all_eq_true]
  intro m hm
  exact List.of_mem_filter hm

/-- The Mark Resolver always returns a well-formed marks array, given a
well-formed accumulator: at most one mark per type, and `code` only
alongside `link`. -/
theorem getMarks_ok : ∀ (fuel : Nat) (token : Tok) (marks : List AdfMark),
    distinctMarkTypes marks = true → marksListOk (getMarks fuel token marks) = true
  | 0, _, _ => by intro _; simp [getMarks, marksListOk, distinctMarkTypes, hasMarkType]
  | fuel + 1, token, marks => by
    intro hd
    rw [getMarks]
    have hd1 : distinctMarkTypes
        (if token.ty == "em" then addMarkIfAbsent marks ⟨"em", none⟩ else marks) = true := by
      split
      · exact distinct_addMarkIfAbsent _ hd
      · exact hd
    generalize (if token.ty == "em" then addMarkIfAbsent marks ⟨"em", none⟩ else marks) = m1 at hd1
    have hd2 : distinctMarkTypes
        (if token.ty == "strong" then addMarkIfAbsent m1 ⟨"strong", none⟩ else m1) = true := by
      split
      · exact distinct_addMarkIfAbsent _ hd1
      · exact hd1
    generalize (if token.ty == "strong" then addMarkIfAbsent m1 ⟨"strong", none⟩ else m1) = m2 at hd2
    have hd3 : distinctMarkTypes
        (if token.ty == "del" then addMarkIfAbsent m2 ⟨"strike", none⟩ else m2) = true := by
      split
      · exact distinct_addMarkIfAbsent _ hd2
      · exact hd2
    generalize (if token.ty == "del" then addMarkIfAbsent m2 ⟨"strike", none⟩ else m2) = m3 at hd3
    have hd4 : distinctMarkTypes
        (if token.ty == "link" then
          setMarkOverwrite m3 ⟨"link", some [("href", AttrVal.str token.href)]⟩ else m3) = true := by
      split
      · exact distinct_setMarkOverwrite _ hd3
      · exact hd3
    generalize (if token.ty == "link" then
        setMarkOverwrite m3 ⟨"link", some [("href", AttrVal.str token.href)]⟩ else m3) = m4 at hd4
    have hd5 : distinctMarkTypes
        (if token.ty == "codespan" then addMarkIfAbsent m4 ⟨"code", none⟩ else m4) = true := by
      split
      · exact distinct_addMarkIfAbsent _ hd4
      · exact hd4
    generalize (if token.ty == "codespan" then addMarkIfAbsent m4 ⟨"code", none⟩ else m4)
      = m5 at hd5
    split
    · exact getMarks_ok fuel _ _ hd5
    · split
      · simp only [marksListOk, Bool.and_eq_true, Bool.or_eq_true]
        refine ⟨distinct_filter _ hd5, Or.inr ?_⟩
        simp only [List.all_eq_true]
        intro m hm
        have := List.of_mem_filter hm
        simpa [Bool.or_comm] using this
      · simp only [marksListOk, Bool.and_eq_true]
        rename_i hcode
        simp only [Bool.not_eq_true] at hcode
        exact ⟨hd5, by simp [hcode]⟩

/-! ## Generic list helpers for the traversals -/

theorem allNodesList_flatten_map {α : Type} (s p : AdfNode → Bool)
    (g : α → List AdfNode) (l : List α) :
    allNodesList s p ((l.map g).flatten) = l.all (fun x => allNodesList s p (g x)) := by
  induction l with
  | nil => rfl
  | cons x xs ih =>
    simp only [List.map_cons, List.flatten_cons, allNodesList_append, ih, List.all_cons]

theorem allNodesList_map_all {α : Type} (s p : AdfNode → Bool)
    (g : α → AdfNode) (l : List α) :
    allNodesList s p (l.map g) = l.all (fun x => allNodes s p (g x)) := by
  induction l with
  | nil => rfl
  | cons x xs ih => simp [allNodesList, ih]

theorem allNodesList_filter_of (s p : AdfNode → Bool) (q : AdfNode → Bool)
    (l : List AdfNode) (h : ∀ n ∈ l, q n = true → allNodes s p n = true) :
    allNodesList s p (l.filter q) = true := by
  rw [allNodesList_eq_all]
  simp only [List.all_eq_true]
  intro n hn
  exact h n (List.mem_of_mem_filter hn) (List.of_mem_filter hn)

theorem all_of_filter {α : Type} (p q : α → Bool) (l : List α)
    (h : l.all p = true) : (l.filter q).all p = true := by
  simp only [List.all_eq_true] at h ⊢
  intro a ha
  exact h a (List.mem_of_mem_filter ha)

/-! ## Node-shape lemmas for the structural invariants -/

theorem processTaskItem_ty (fuel : Nat) (item : Tok) :
    (processTaskItem fuel item).ty = "taskItem" := by
  cases fuel <;> rfl

theorem pStructural_plain (ty : String) (attrs : Option (List (String × AttrVal)))
    (content : Option (List AdfNode)) (text : Option String)
    (hty : (ty == "taskList") = false) :
    pStructural (AdfNode.mk ty attrs content none text) = true := by
  simp [pStructural, taskListOkShallow, marksOkShallow, AdfNode.ty, AdfNode.marks, hty]

theorem allNodes_plain (ty : String) (attrs : Option (List (String × AttrVal)))
    (l : List AdfNode) (text : Option String)
    (hty : (ty == "taskList") = false)
    (hl : allNodesList noSkip pStructural l = true) :
    allNodes noSkip pStructural (AdfNode.mk ty attrs (some l) none text) = true := by
  simp only [allNodes, Bool.and_eq_true, Bool.or_eq_true]
  exact ⟨pStructural_plain ty attrs (some l) text hty, Or.inr hl⟩

theorem allNodes_plain_none (ty : String) (attrs : Option (List (String × AttrVal)))
    (text : Option String) (hty : (ty == "taskList") = false) :
    allNodes noSkip pStructural (AdfNode.mk ty attrs none none text) = true := by
  simp only [allNodes]
  exact pStructural_plain ty attrs none text hty

theorem allNodes_taskList (attrs : Option (List (String × AttrVal))) (l : List AdfNode)
    (hl : allNodesList noSkip pStructural l = true)
    (hty : l.all taskListChildOk = true) :
    allNodes noSkip pStructural (AdfNode.mk "taskList" attrs (some l) none none) = true := by
  simp only [allNodes, Bool.and_eq_true, Bool.or_eq_true]
  refine ⟨?_, Or.inr hl⟩
  simp [pStructural, taskListOkShallow, marksOkShallow, AdfNode.ty, AdfNode.marks,
    AdfNode.content, hty]

theorem allNodes_marked_text (ms : List AdfMark) (text : Option String)
    (hm : marksListOk ms = true) :
    allNodes noSkip pStructural (AdfNode.mk "text" none none (some ms) text) = true := by
  simp [allNodes, pStructural, taskListOkShallow, marksOkShallow, AdfNode.ty, AdfNode.marks, hm]

theorem allNodes_createMediaNode (t : Tok) :
    allNodes noSkip pStructural (createMediaNode t) = true := by
  simp [createMediaNode, allNodes, allNodesList, pStructural, taskListOkShallow,
    marksOkShallow, AdfNode.ty, AdfNode.marks]

/-! ## Regrouping lemmas (Phase 2 of the extraction algorithm) -/

theorem flushTaskItems_ok (current : List AdfNode)
    (hc : allNodesList noSkip pStructural current = true)
    (hty : current.all taskListChildOk = true) :
    allNodesList noSkip pStructural (flushTaskItems current) = true := by
  unfold flushTaskItems
  split
  · simp only [allNodesList_cons, allNodesList_nil, Bool.and_true]
    exact allNodes_taskList _ current hc hty
  · rfl

theorem regroupTaskItems_ok : ∀ (entries : List TaggedNode) (current : List AdfNode),
    entries.all taggedOk = true →
    allNodesList noSkip pStructural current = true →
    current.all taskListChildOk = true →
    allNodesList noSkip pStructural (regroupTaskItems current entries) = true
  | [], current => by
    intro _ hc hty
    exact flushTaskItems_ok current hc hty
  | e :: rest, current => by
    intro he hc hty
    simp only [List.all_cons, Bool.and_eq_true] at he
    obtain ⟨he1, he2⟩ := he
    simp only [taggedOk, Bool.and_eq_true, Bool.or_eq_true, Bool.not_eq_true'] at he1
    obtain ⟨hnode, htag⟩ := he1
    rw [regroupTaskItems]
    split
    · rename_i htaskItem
      refine regroupTaskItems_ok rest (current ++ [e.node]) he2 ?_ ?_
      · rw [allNodesList_append]
        simp [hc, hnode]
      · rcases htag with htag | htag
        · rw [htaskItem] at htag
          cases htag
        · simp [List.all_append, hty, htag]
    · rw [allNodesList_append, allNodesList_cons]
      simp only [Bool.and_eq_true]
      exact ⟨flushTaskItems_ok current hc hty,
        hnode, regroupTaskItems_ok rest [] he2 rfl rfl⟩

/-- The `taskItem`-tagged nodes of an invariant-respecting interleaved
sequence form legal, invariant-respecting `taskList` content. -/
theorem nestedTaskItems_ok (l : List TaggedNode) (h : l.all taggedOk = true) :
    allNodesList noSkip pStructural
      ((l.filter (fun n => n.ty == "taskItem")).map (fun n => n.node)) = true ∧
    ((l.filter (fun n => n.ty == "taskItem")).map (fun n => n.node)).all
      taskListChildOk = true := by
  constructor
  · rw [allNodesList_map_all]
    simp only [List.all_eq_true]
    intro e he
    have hmem := List.mem_of_mem_filter he
    have := (List.all_eq_true.mp h) e hmem
    simp only [taggedOk, Bool.and_eq_true] at this
    exact this.1
  · simp only [List.all_eq_true]
    intro n hn
    rw [List.mem_map] at hn
    obtain ⟨e, he, rfl⟩ := hn
    have hmem := List.mem_of_mem_filter he
    have hq := List.of_mem_filter he
    have := (List.all_eq_true.mp h) e hmem
    simp only [taggedOk, Bool.and_eq_true, Bool.or_eq_true, Bool.not_eq_true'] at this
    rcases this.2 with h2 | h2
    · rw [h2] at hq
      exact Bool.noConfusion hq
    · exact h2

/-! ## The master induction for the structural invariants -/

theorem structuralInv_step_inline (fuel : Nat) (ih : StructuralInv fuel) :
    ∀ toks, allNodesList noSkip pStructural (inlineToAdf (fuel + 1) toks) = true := by
  obtain ⟨ihTA, ihPP, ihPL, ihPT, ihPLI, ihLIL, ihPTI, ihTIL, ihINT, ihIIL, ihINS,
    ihPRES, ihINL⟩ := ih
  intro toks
  cases toks with
  | none => rfl
  | some tokens =>
    rw [inlineToAdf]
    apply allNodesList_filter_of
    intro n hn _
    rw [List.mem_flatten] at hn
    obtain ⟨l', hl', hnl⟩ := hn
    rw [List.mem_map] at hl'
    obtain ⟨token, htok, rfl⟩ := hl'
    split at hnl
    · split at hnl
      · rename_i ts hts
        have := ihINL (some ts)
        rw [allNodesList_eq_all] at this
        exact List.all_eq_true.mp this n hnl
      · simp only [List.mem_singleton] at hnl
        subst hnl
        exact allNodes_plain_none _ _ _ rfl
    · rw [List.mem_map] at hnl
      obtain ⟨t, _, rfl⟩ := hnl
      exact allNodes_marked_text _ _ (getMarks_ok fuel t _ (by decide))
    · rw [List.mem_map] at hnl
      obtain ⟨t, _, rfl⟩ := hnl
      exact allNodes_marked_text _ _ (getMarks_ok fuel t _ (by decide))
    · rw [List.mem_map] at hnl
      obtain ⟨t, _, rfl⟩ := hnl
      exact allNodes_marked_text _ _ (getMarks_ok fuel t _ (by decide))
    · simp only [List.mem_singleton] at hnl
      subst hnl
      exact allNodes_marked_text _ _ (getMarks_ok fuel token _ (by decide))
    · simp only [List.mem_singleton] at hnl
      subst hnl
      exact allNodes_marked_text _ _ (getMarks_ok fuel token _ (by decide))
    · simp only [List.mem_singleton] at hnl
      subst hnl
      exact allNodes_plain_none _ _ _ rfl
    · cases hnl

theorem structuralInv_step_paragraphLoop (fuel : Nat) (ih : StructuralInv fuel) :
    ∀ pending rest, allNodesList noSkip pStructural (paragraphLoop (fuel + 1) pending rest) = true := by
  obtain ⟨ihTA, ihPP, ihPL, ihPT, ihPLI, ihLIL, ihPTI, ihTIL, ihINT, ihIIL, ihINS,
    ihPRES, ihINL⟩ := ih
  intro pending rest
  cases rest with
  | nil =>
    rw [paragraphLoop]
    split
    · rfl
    · simp only [allNodesList_cons, allNodesList_nil, Bool.and_true]
      exact allNodes_plain _ _ _ _ rfl (ihINL _)
  | cons token rest =>
    rw [paragraphLoop]
    split
    · rw [allNodesList_append, Bool.and_eq_true]
      constructor
      · split
        · rfl
        · simp only [allNodesList_cons, allNodesList_nil, Bool.and_true]
          exact allNodes_plain _ _ _ _ rfl (ihINL _)
      · simp only [allNodesList_cons, Bool.and_eq_true]
        exact ⟨allNodes_createMediaNode token, ihPL [] rest⟩
    · exact ihPL (pending ++ [token]) rest

theorem structuralInv_step_tokensToAdf (fuel : Nat) (ih : StructuralInv fuel) :
    ∀ toks, allNodesList noSkip pStructural (tokensToAdf (fuel + 1) toks) = true := by
  obtain ⟨ihTA, ihPP, ihPL, ihPT, ihPLI, ihLIL, ihPTI, ihTIL, ihINT, ihIIL, ihINS,
    ihPRES, ihINL⟩ := ih
  intro toks
  cases toks with
  | none => rfl
  | some tokens =>
    rw [tokensToAdf, allNodesList_flatten_map]
    simp only [List.all_eq_true]
    intro token _
    split
    · exact ihPP token.tokens
    · simp only [allNodesList_cons, allNodesList_nil, Bool.and_true]
      exact allNodes_plain _ _ _ _ rfl (ihINL token.tokens)
    · split
      · exact ihPRES token.items
      · simp only [allNodesList_cons, allNodesList_nil, Bool.and_true]
        refine allNodes_plain _ _ _ _ (by cases token.ordered <;> rfl) ?_
        rw [allNodesList_map_all]
        simp only [List.all_eq_true]
        intro item _
        exact ihPLI item
    · simp only [allNodesList_cons, allNodesList_nil, Bool.and_true]
      refine allNodes_plain _ _ _ _ rfl ?_
      simp only [allNodesList_cons, allNodesList_nil, Bool.and_true]
      exact allNodes_plain_none _ _ _ rfl
    · simp only [allNodesList_cons, allNodesList_nil, Bool.and_true]
      exact allNodes_plain _ _ _ _ rfl (ihTA token.tokens)
    · simp only [allNodesList_cons, allNodesList_nil, Bool.and_true]
      exact allNodes_plain_none _ _ _ rfl
    · simp only [allNodesList_cons, allNodesList_nil, Bool.and_true]
      exact ihPT token
    · rfl

theorem structuralInv_step_processParagraph (fuel : Nat) (ih : StructuralInv fuel) :
    ∀ toks, allNodesList noSkip pStructural (processParagraph (fuel + 1) toks) = true := by
  obtain ⟨ihTA, ihPP, ihPL, ihPT, ihPLI, ihLIL, ihPTI, ihTIL, ihINT, ihIIL, ihINS,
    ihPRES, ihINL⟩ := ih
  intro toks
  cases toks with
  | none => rfl
  | some tokens =>
    cases tokens with
    | nil => exact ihPL [] []
    | cons t rest =>
      cases rest with
      | nil =>
        show allNodesList noSkip pStructural
          (if t.ty == "image" then [createMediaNode t] else paragraphLoop fuel [] [t]) = true
        split
        · simp only [allNodesList_cons, allNodesList_nil, Bool.and_true]
          exact allNodes_createMediaNode _
        · exact ihPL [] [t]
      | cons t2 rest2 => exact ihPL [] (t :: t2 :: rest2)

theorem structuralInv_step_processTable (fuel : Nat) (ih : StructuralInv fuel) :
    ∀ token, allNodes noSkip pStructural (processTable (fuel + 1) token) = true := by
  obtain ⟨ihTA, ihPP, ihPL, ihPT, ihPLI, ihLIL, ihPTI, ihTIL, ihINT, ihIIL, ihINS,
    ihPRES, ihINL⟩ := ih
  intro token
  rw [processTable]
  refine allNodes_plain _ _ _ _ rfl ?_
  rw [allNodesList_append, Bool.and_eq_true]
  constructor
  · split
    · simp only [allNodesList_cons, allNodesList_nil, Bool.and_true]
      refine allNodes_plain _ _ _ _ rfl ?_
      rw [allNodesList_map_all]
      simp only [List.all_eq_true]
      intro cell _
      exact allNodes_plain _ _ _ _ rfl (ihPP (some cell))
    · rfl
  · rw [allNodesList_map_all]
    simp only [List.all_eq_true]
    intro row _
    refine allNodes_plain _ _ _ _ rfl ?_
    rw [allNodesList_map_all]
    simp only [List.all_eq_true]
    intro cell _
    refine allNodes_plain _ _ _ _ rfl ?_
    split
    · rw [allNodesList_append, Bool.and_eq_true]
      refine ⟨ihPP (some cell), ?_⟩
      simp only [allNodesList_cons, allNodesList_nil, Bool.and_true]
      refine allNodes_plain _ _ _ _ rfl ?_
      simp only [allNodesList_cons, allNodesList_nil, Bool.and_true]
      exact allNodes_plain_none _ _ _ rfl
    · exact ihPP (some cell)

theorem structuralInv_step_processListItem (fuel : Nat) (ih : StructuralInv fuel) :
    ∀ item, allNodes noSkip pStructural (processListItem (fuel + 1) item) = true := by
  intro item
  rw [processListItem]
  exact allNodes_plain _ _ _ _ rfl (ih.2.2.2.2.2.1 [] (item.tokens.getD []))

theorem structuralInv_step_listItemLoop (fuel : Nat) (ih : StructuralInv fuel) :
    ∀ pending rest, allNodesList noSkip pStructural (listItemLoop (fuel + 1) pending rest) = true := by
  obtain ⟨ihTA, ihPP, ihPL, ihPT, ihPLI, ihLIL, ihPTI, ihTIL, ihINT, ihIIL, ihINS,
    ihPRES, ihINL⟩ := ih
  intro pending rest
  cases rest with
  | nil =>
    rw [listItemLoop]
    split
    · rfl
    · simp only [allNodesList_cons, allNodesList_nil, Bool.and_true]
      exact allNodes_plain _ _ _ _ rfl (ihINL _)
  | cons token rest =>
    rw [listItemLoop]
    split
    · exact ihLIL (pending ++ [token]) rest
    · rw [allNodesList_append, allNodesList_append, Bool.and_eq_true, Bool.and_eq_true]
      refine ⟨⟨?_, ?_⟩, ihLIL [] rest⟩
      · split
        · rfl
        · simp only [allNodesList_cons, allNodesList_nil, Bool.and_true]
          exact allNodes_plain _ _ _ _ rfl (ihINL _)
      · split
        · split
          · simp only [allNodesList_cons, allNodesList_nil, Bool.and_true]
            refine allNodes_taskList _ _ ?_ ?_
            · rw [allNodesList_map_all]
              simp only [List.all_eq_true]
              intro nested _
              exact ihPTI nested
            · simp only [List.all_eq_true]
              intro n hn
              rw [List.mem_map] at hn
              obtain ⟨nested, _, rfl⟩ := hn
              simp [taskListChildOk, processTaskItem_ty]
          · simp only [allNodesList_cons, allNodesList_nil, Bool.and_true]
            refine allNodes_plain _ _ _ _ (by cases token.ordered <;> rfl) ?_
            rw [allNodesList_map_all]
            simp only [List.all_eq_true]
            intro nested _
            exact ihPLI nested
        · exact ihTA (some [token])

theorem structuralInv_step_processTaskItem (fuel : Nat) (ih : StructuralInv fuel) :
    ∀ item, allNodes noSkip pStructural (processTaskItem (fuel + 1) item) = true := by
  intro item
  rw [processTaskItem]
  exact allNodes_plain _ _ _ _ rfl (ih.2.2.2.2.2.2.2.1 [] (item.tokens.getD []))

theorem structuralInv_step_taskItemLoop (fuel : Nat) (ih : StructuralInv fuel) :
    ∀ pending rest, allNodesList noSkip pStructural (taskItemLoop (fuel + 1) pending rest) = true := by
  obtain ⟨ihTA, ihPP, ihPL, ihPT, ihPLI, ihLIL, ihPTI, ihTIL, ihINT, ihIIL, ihINS,
    ihPRES, ihINL⟩ := ih
  intro pending rest
  cases rest with
  | nil =>
    rw [taskItemLoop]
    split
    · rfl
    · exact ihINL _
  | cons token rest =>
    rw [taskItemLoop]
    split
    · exact ihTIL (pending ++ [token]) rest
    · rw [allNodesList_append, allNodesList_append, Bool.and_eq_true, Bool.and_eq_true]
      refine ⟨⟨?_, ?_⟩, ihTIL [] rest⟩
      · split
        · rfl
        · exact ihINL _
      · split
        · exact ihTA (some [token])
        · rfl

theorem structuralInv_step_interleavedNestedScan (fuel : Nat) (ih : StructuralInv fuel) :
    ∀ toks, (interleavedNestedScan (fuel + 1) toks).all taggedOk = true := by
  obtain ⟨ihTA, ihPP, ihPL, ihPT, ihPLI, ihLIL, ihPTI, ihTIL, ihINT, ihIIL, ihINS,
    ihPRES, ihINL⟩ := ih
  intro toks
  cases toks with
  | nil => rfl
  | cons token rest =>
    rw [interleavedNestedScan]
    rw [List.all_append, Bool.and_eq_true]
    refine ⟨?_, ihINS rest⟩
    split
    · split
      · simp only [List.all_cons, Bool.and_eq_true]
        constructor
        · obtain ⟨h1, h2⟩ := nestedTaskItems_ok _ (ihINT token.items)
          simp only [taggedOk, TaggedNode.ty, TaggedNode.node, Bool.and_eq_true]
          refine ⟨allNodes_taskList _ _ h1 h2, ?_⟩
          simp [taskListChildOk, AdfNode.ty]
        · exact all_of_filter _ _ _ (ihINT token.items)
      · simp only [List.all_cons, List.all_nil, Bool.and_true]
        simp only [taggedOk, TaggedNode.ty, TaggedNode.node, Bool.and_eq_true]
        constructor
        · refine allNodes_plain _ _ _ _ (by cases token.ordered <;> rfl) ?_
          rw [allNodesList_map_all]
          simp only [List.all_eq_true]
          intro nested _
          exact ihPLI nested
        · rfl
    · rfl

theorem structuralInv_step_interleavedItemsLoop (fuel : Nat) (ih : StructuralInv fuel) :
    ∀ items, (interleavedItemsLoop (fuel + 1) items).all taggedOk = true := by
  obtain ⟨ihTA, ihPP, ihPL, ihPT, ihPLI, ihLIL, ihPTI, ihTIL, ihINT, ihIIL, ihINS,
    ihPRES, ihINL⟩ := ih
  intro items
  cases items with
  | nil => rfl
  | cons item rest =>
    rw [interleavedItemsLoop]
    simp only [List.all_cons, List.all_append, Bool.and_eq_true]
    refine ⟨?_, ihINS _, ihIIL rest⟩
    simp only [taggedOk, TaggedNode.ty, TaggedNode.node, Bool.and_eq_true]
    refine ⟨ihPTI item, ?_⟩
    simp [taskListChildOk, processTaskItem_ty]

theorem structuralInv_step_interleaved (fuel : Nat) (ih : StructuralInv fuel) :
    ∀ items, (processTaskListItemsInterleaved (fuel + 1) items).all taggedOk = true := by
  intro items
  rw [processTaskListItemsInterleaved]
  exact ih.2.2.2.2.2.2.2.2.2.1 items

theorem structuralInv_step_preservingOrder (fuel : Nat) (ih : StructuralInv fuel) :
    ∀ items, allNodesList noSkip pStructural
      (processTaskListItemsWithExtractionPreservingOrder (fuel + 1) items) = true := by
  intro items
  rw [processTaskListItemsWithExtractionPreservingOrder]
  exact regroupTaskItems_ok _ [] (ih.2.2.2.2.2.2.2.2.1 items) rfl rfl

/-- The structural invariants hold at every fuel. -/
theorem structuralInv : ∀ fuel, StructuralInv fuel := by
  intro fuel
  induction fuel with
  | zero =>
    exact ⟨fun _ => rfl, fun _ => rfl, fun _ _ => rfl, fun _ => rfl, fun _ => rfl,
      fun _ _ => rfl, fun _ => rfl, fun _ _ => rfl, fun _ => rfl, fun _ => rfl,
      fun _ => rfl, fun _ => rfl, fun _ => rfl⟩
  | succ fuel ih =>
    exact ⟨structuralInv_step_tokensToAdf fuel ih,
      structuralInv_step_processParagraph fuel ih,
      structuralInv_step_paragraphLoop fuel ih,
      structuralInv_step_processTable fuel ih,
      structuralInv_step_processListItem fuel ih,
      structuralInv_step_listItemLoop fuel ih,
      structuralInv_step_processTaskItem fuel ih,
      structuralInv_step_taskItemLoop fuel ih,
      structuralInv_step_interleaved fuel ih,
      structuralInv_step_interleavedItemsLoop fuel ih,
      structuralInv_step_interleavedNestedScan fuel ih,
      structuralInv_step_preservingOrder fuel ih,
      structuralInv_step_inline fuel ih⟩

/-! ## Claim theorems -/

/-- C1: for a task list `task1 {sub-bullets 1.1, 1.2}, task2` (two task
items, the first carrying a nested ordinary bullet list), the extraction
algorithm returns three siblings in original document order — a `taskList`
holding only task 1, then the hoisted `bulletList` with items 1.1 and 1.2,
then a `taskList` holding only task 2 — with the hoisted list immediately
after the task item that carried it, never collapsed to the end. -/
theorem extraction_preserves_document_order :
    processTaskListItemsWithExtractionPreservingOrder 10
      [taskItemTok true [textTok "Task 1",
         bulletListTok [plainItemTok [textTok "1.1"], plainItemTok [textTok "1.2"]]],
       taskItemTok true [textTok "Task 2"]] =
    [tTaskList [tTaskItem "DONE" [tTextNode "Task 1"]],
     AdfNode.mk "bulletList" none
       (some [tListItem [tPara [tTextNode "1.1"]], tListItem [tPara [tTextNode "1.2"]]])
       none none,
     tTaskList [tTaskItem "DONE" [tTextNode "Task 2"]]] := rfl

/-- C2: in every document produced by the converter, every `taskList` node
has only `taskItem` and nested `taskList` direct children — never
`bulletList`/`orderedList` — at any nesting depth, for every input token
tree (and every fuel). -/
theorem taskList_children_only_task_nodes (fuel : Nat) (toks : Option (List Tok)) :
    allNodesList noSkip taskListOkShallow (tokensToAdf fuel toks) = true := by
  refine allNodesList_mono noSkip ?_ _ ((structuralInv fuel).1 toks)
  intro n hn
  simp only [pStructural, Bool.and_eq_true] at hn
  exact hn.1

/-- C4: in every produced document, every node's marks array has at most
one mark per mark type, and whenever a `code` mark is present only `link`
marks may co-occur with it (never `em`/`strong`/`strike`). -/
theorem marks_dedup_and_code_cooccurrence (fuel : Nat) (toks : Option (List Tok)) :
    allNodesList noSkip marksOkShallow (tokensToAdf fuel toks) = true := by
  refine allNodesList_mono noSkip ?_ _ ((structuralInv fuel).1 toks)
  intro n hn
  simp only [pStructural, Bool.and_eq_true] at hn
  exact hn.2

/-- C5, counterexample: a table with one empty header cell and one body row
holding an image-only cell and an empty cell.  The produced `tableHeader`
has *empty* content (header cells are not padded), and the image-only
`tableCell` contains a `mediaSingle` with no paragraph at all; only the
empty body cell receives the single-space paragraph. -/
theorem table_cell_padding_counterexample :
    processTable 8 (tableTok [[]] [[[imageTok "u" "alt"], []]]) =
      AdfNode.mk "table" none (some
        [AdfNode.mk "tableRow" none
           (some [AdfNode.mk "tableHeader" none (some []) none none]) none none,
         AdfNode.mk "tableRow" none (some
           [AdfNode.mk "tableCell" none
              (some [createMediaNode (imageTok "u" "alt")]) none none,
            AdfNode.mk "tableCell" none (some [tPara [tTextNode " "]]) none none])
           none none])
        none none := rfl

/-- C5, amended: every `tableCell` (body cell) of a produced table has
non-empty content; header cells are not padded, and a non-empty body cell
keeps its processed content, which need not contain a paragraph. -/
theorem body_table_cells_nonempty (fuel : Nat) (token : Tok) :
    ((processTable fuel token).content.getD []).all (fun row =>
      (row.content.getD []).all (fun cell =>
        !(cell.ty == "tableCell") || !(cell.content.getD []).isEmpty)) = true := by
  cases fuel with
  | zero => rfl
  | succ fuel =>
    rw [processTable]
    simp only [AdfNode.content, Option.getD_some, List.all_append]
    rw [Bool.and_eq_true]
    constructor
    · split
      · simp only [List.all_cons, List.all_nil, Bool.and_true, AdfNode.content,
          Option.getD_some]
        simp only [List.all_eq_true]
        intro cell hcell
        rw [List.mem_map] at hcell
        obtain ⟨c, _, rfl⟩ := hcell
        rfl
      · rfl
    · simp only [List.all_eq_true]
      intro row hrow
      rw [List.mem_map] at hrow
      obtain ⟨r, _, rfl⟩ := hrow
      simp only [AdfNode.content, Option.getD_some, List.all_eq_true]
      intro cell hcell
      rw [List.mem_map] at hcell
      obtain ⟨c, _, rfl⟩ := hcell
      simp only [AdfNode.ty, AdfNode.content, Option.getD_some]
      split
      · simp [List.isEmpty_iff]
      · rename_i hlen
        simp only [beq_iff_eq] at hlen
        simp [List.isEmpty_iff, List.length_eq_zero] at hlen ⊢
        simpa using hlen

/-! ## The master induction for the no-empty-text invariant -/

theorem textNotEmpty_nontext (ty : String) (attrs : Option (List (String × AttrVal)))
    (content : Option (List AdfNode)) (marks : Option (List AdfMark)) (text : Option String)
    (hty : (ty == "text") = false) :
    textNotEmpty (AdfNode.mk ty attrs content marks text) = true := by
  simp [textNotEmpty, AdfNode.ty, AdfNode.text, hty]

theorem allNodes2_nontext (ty : String) (attrs : Option (List (String × AttrVal)))
    (l : List AdfNode) (marks : Option (List AdfMark)) (text : Option String)
    (hty : (ty == "text") = false)
    (hl : allNodesList skipCodeBlock textNotEmpty l = true) :
    allNodes skipCodeBlock textNotEmpty (AdfNode.mk ty attrs (some l) marks text) = true := by
  simp only [allNodes, Bool.and_eq_true, Bool.or_eq_true]
  exact ⟨textNotEmpty_nontext _ _ _ _ _ hty, Or.inr hl⟩

theorem allNodes2_nontext_none (ty : String) (attrs : Option (List (String × AttrVal)))
    (marks : Option (List AdfMark)) (text : Option String)
    (hty : (ty == "text") = false) :
    allNodes skipCodeBlock textNotEmpty (AdfNode.mk ty attrs none marks text) = true := by
  simp only [allNodes]
  exact textNotEmpty_nontext _ _ _ _ _ hty

theorem allNodes2_text (attrs : Option (List (String × AttrVal)))
    (marks : Option (List AdfMark)) (s : String) (hs : (s == "") = false) :
    allNodes skipCodeBlock textNotEmpty (AdfNode.mk "text" attrs none marks (some s)) = true := by
  simp [allNodes, textNotEmpty, AdfNode.ty, AdfNode.text, hs]

theorem allNodes2_codeBlock (attrs : Option (List (String × AttrVal)))
    (l : List AdfNode) (marks : Option (List AdfMark)) (text : Option String) :
    allNodes skipCodeBlock textNotEmpty (AdfNode.mk "codeBlock" attrs (some l) marks text) = true := by
  simp [allNodes, skipCodeBlock, textNotEmpty, AdfNode.ty]

theorem flushTaskItems_ok2 (current : List AdfNode)
    (hc : allNodesList skipCodeBlock textNotEmpty current = true) :
    allNodesList skipCodeBlock textNotEmpty (flushTaskItems current) = true := by
  unfold flushTaskItems
  split
  · simp only [allNodesList_cons, allNodesList_nil, Bool.and_true]
    exact allNodes2_nontext _ _ _ _ _ rfl hc
  · rfl

theorem regroupTaskItems_ok2 : ∀ (entries : List TaggedNode) (current : List AdfNode),
    entries.all (fun e => allNodes skipCodeBlock textNotEmpty e.node) = true →
    allNodesList skipCodeBlock textNotEmpty current = true →
    allNodesList skipCodeBlock textNotEmpty (regroupTaskItems current entries) = true
  | [], current => by
    intro _ hc
    exact flushTaskItems_ok2 current hc
  | e :: rest, current => by
    intro he hc
    simp only [List.all_cons, Bool.and_eq_true] at he
    obtain ⟨he1, he2⟩ := he
    rw [regroupTaskItems]
    split
    · refine regroupTaskItems_ok2 rest (current ++ [e.node]) he2 ?_
      rw [allNodesList_append]
      simp [hc, he1]
    · rw [allNodesList_append, allNodesList_cons]
      simp only [Bool.and_eq_true]
      exact ⟨flushTaskItems_ok2 current hc, he1, regroupTaskItems_ok2 rest [] he2 rfl⟩

theorem nestedTaskItems_ok2 (l : List TaggedNode)
    (h : l.all (fun e => allNodes skipCodeBlock textNotEmpty e.node) = true) :
    allNodesList skipCodeBlock textNotEmpty
      ((l.filter (fun n => n.ty == "taskItem")).map (fun n => n.node)) = true := by
  rw [allNodesList_map_all]
  simp only [List.all_eq_true]
  intro e he
  exact (List.all_eq_true.mp h) e (List.mem_of_mem_filter he)

theorem allNodes2_createMediaNode (t : Tok) :
    allNodes skipCodeBlock textNotEmpty (createMediaNode t) = true := by
  simp [createMediaNode, allNodes, allNodesList, textNotEmpty, skipCodeBlock, AdfNode.ty]

theorem noEmptyText_step_inline (fuel : Nat) (ih : NoEmptyTextInv fuel) :
    ∀ toks, allNodesList skipCodeBlock textNotEmpty (inlineToAdf (fuel + 1) toks) = true := by
  obtain ⟨ihTA, ihPP, ihPL, ihPT, ihPLI, ihLIL, ihPTI, ihTIL, ihINT, ihIIL, ihINS,
    ihPRES, ihINL⟩ := ih
  intro toks
  cases toks with
  | none => rfl
  | some tokens =>
    rw [inlineToAdf]
    apply allNodesList_filter_of
    intro n hn hq
    rw [List.mem_flatten] at hn
    obtain ⟨l', hl', hnl⟩ := hn
    rw [List.mem_map] at hl'
    obtain ⟨token, htok, rfl⟩ := hl'
    split at hnl
    · split at hnl
      · rename_i ts hts
        have := ihINL (some ts)
        rw [allNodesList_eq_all] at this
        exact List.all_eq_true.mp this n hnl
      · simp only [List.mem_singleton] at hnl
        subst hnl
        simp only [AdfNode.ty, AdfNode.text, Option.getD_some, Bool.not_eq_true',
          Bool.and_eq_false_iff] at hq
        apply allNodes2_text
        rcases hq with hq | hq
        · simp at hq
        · exact hq
    · rw [List.mem_map] at hnl
      obtain ⟨t, _, rfl⟩ := hnl
      simp only [AdfNode.ty, AdfNode.text, Option.getD_some, Bool.not_eq_true',
        Bool.and_eq_false_iff] at hq
      apply allNodes2_text
      rcases hq with hq | hq
      · simp at hq
      · exact hq
    · rw [List.mem_map] at hnl
      obtain ⟨t, _, rfl⟩ := hnl
      simp only [AdfNode.ty, AdfNode.text, Option.getD_some, Bool.not_eq_true',
        Bool.and_eq_false_iff] at hq
      apply allNodes2_text
      rcases hq with hq | hq
      · simp at hq
      · exact hq
    · rw [List.mem_map] at hnl
      obtain ⟨t, _, rfl⟩ := hnl
      simp only [AdfNode.ty, AdfNode.text, Option.getD_some, Bool.not_eq_true',
        Bool.and_eq_false_iff] at hq
      apply allNodes2_text
      rcases hq with hq | hq
      · simp at hq
      · exact hq
    · simp only [List.mem_singleton] at hnl
      subst hnl
      simp only [AdfNode.ty, AdfNode.text, Option.getD_some, Bool.not_eq_true',
        Bool.and_eq_false_iff] at hq
      apply allNodes2_text
      rcases hq with hq | hq
      · simp at hq
      · exact hq
    · simp only [List.mem_singleton] at hnl
      subst hnl
      simp only [AdfNode.ty, AdfNode.text, Option.getD_some, Bool.not_eq_true',
        Bool.and_eq_false_iff] at hq
      apply allNodes2_text
      rcases hq with hq | hq
      · simp at hq
      · exact hq
    · simp only [List.mem_singleton] at hnl
      subst hnl
      exact allNodes2_nontext_none _ _ _ _ rfl
    · cases hnl

theorem noEmptyText_step_paragraphLoop (fuel : Nat) (ih : NoEmptyTextInv fuel) :
    ∀ pending rest, allNodesList skipCodeBlock textNotEmpty
      (paragraphLoop (fuel + 1) pending rest) = true := by
  obtain ⟨ihTA, ihPP, ihPL, ihPT, ihPLI, ihLIL, ihPTI, ihTIL, ihINT, ihIIL, ihINS,
    ihPRES, ihINL⟩ := ih
  intro pending rest
  cases rest with
  | nil =>
    rw [paragraphLoop]
    split
    · rfl
    · simp only [allNodesList_cons, allNodesList_nil, Bool.and_true]
      exact allNodes2_nontext _ _ _ _ _ rfl (ihINL _)
  | cons token rest =>
    rw [paragraphLoop]
    split
    · rw [allNodesList_append, Bool.and_eq_true]
      constructor
      · split
        · rfl
        · simp only [allNodesList_cons, allNodesList_nil, Bool.and_true]
          exact allNodes2_nontext _ _ _ _ _ rfl (ihINL _)
      · simp only [allNodesList_cons, Bool.and_eq_true]
        exact ⟨allNodes2_createMediaNode token, ihPL [] rest⟩
    · exact ihPL (pending ++ [token]) rest

theorem noEmptyText_step_tokensToAdf (fuel : Nat) (ih : NoEmptyTextInv fuel) :
    ∀ toks, allNodesList skipCodeBlock textNotEmpty (tokensToAdf (fuel + 1) toks) = true := by
  obtain ⟨ihTA, ihPP, ihPL, ihPT, ihPLI, ihLIL, ihPTI, ihTIL, ihINT, ihIIL, ihINS,
    ihPRES, ihINL⟩ := ih
  intro toks
  cases toks with
  | none => rfl
  | some tokens =>
    rw [tokensToAdf, allNodesList_flatten_map]
    simp only [List.all_eq_true]
    intro token _
    split
    · exact ihPP token.tokens
    · simp only [allNodesList_cons, allNodesList_nil, Bool.and_true]
      exact allNodes2_nontext _ _ _ _ _ rfl (ihINL token.tokens)
    · split
      · exact ihPRES token.items
      · simp only [allNodesList_cons, allNodesList_nil, Bool.and_true]
        refine allNodes2_nontext _ _ _ _ _ (by cases token.ordered <;> rfl) ?_
        rw [allNodesList_map_all]
        simp only [List.all_eq_true]
        intro item _
        exact ihPLI item
    · simp only [allNodesList_cons, allNodesList_nil, Bool.and_true]
      exact allNodes2_codeBlock _ _ _ _
    · simp only [allNodesList_cons, allNodesList_nil, Bool.and_true]
      exact allNodes2_nontext _ _ _ _ _ rfl (ihTA token.tokens)
    · simp only [allNodesList_cons, allNodesList_nil, Bool.and_true]
      exact allNodes2_nontext_none _ _ _ _ rfl
    · simp only [allNodesList_cons, allNodesList_nil, Bool.and_true]
      exact ihPT token
    · rfl

theorem noEmptyText_step_processParagraph (fuel : Nat) (ih : NoEmptyTextInv fuel) :
    ∀ toks, allNodesList skipCodeBlock textNotEmpty (processParagraph (fuel + 1) toks) = true := by
  obtain ⟨ihTA, ihPP, ihPL, ihPT, ihPLI, ihLIL, ihPTI, ihTIL, ihINT, ihIIL, ihINS,
    ihPRES, ihINL⟩ := ih
  intro toks
  cases toks with
  | none => rfl
  | some tokens =>
    cases tokens with
    | nil => exact ihPL [] []
    | cons t rest =>
      cases rest with
      | nil =>
        show allNodesList skipCodeBlock textNotEmpty
          (if t.ty == "image" then [createMediaNode t] else paragraphLoop fuel [] [t]) = true
        split
        · simp only [allNodesList_cons, allNodesList_nil, Bool.and_true]
          exact allNodes2_createMediaNode _
        · exact ihPL [] [t]
      | cons t2 rest2 => exact ihPL [] (t :: t2 :: rest2)

theorem noEmptyText_step_processTable (fuel : Nat) (ih : NoEmptyTextInv fuel) :
    ∀ token, allNodes skipCodeBlock textNotEmpty (processTable (fuel + 1) token) = true := by
  obtain ⟨ihTA, ihPP, ihPL, ihPT, ihPLI, ihLIL, ihPTI, ihTIL, ihINT, ihIIL, ihINS,
    ihPRES, ihINL⟩ := ih
  intro token
  rw [processTable]
  refine allNodes2_nontext _ _ _ _ _ rfl ?_
  rw [allNodesList_append, Bool.and_eq_true]
  constructor
  · split
    · simp only [allNodesList_cons, allNodesList_nil, Bool.and_true]
      refine allNodes2_nontext _ _ _ _ _ rfl ?_
      rw [allNodesList_map_all]
      simp only [List.all_eq_true]
      intro cell _
      exact allNodes2_nontext _ _ _ _ _ rfl (ihPP (some cell))
    · rfl
  · rw [allNodesList_map_all]
    simp only [List.all_eq_true]
    intro row _
    refine allNodes2_nontext _ _ _ _ _ rfl ?_
    rw [allNodesList_map_all]
    simp only [List.all_eq_true]
    intro cell _
    refine allNodes2_nontext _ _ _ _ _ rfl ?_
    split
    · rw [allNodesList_append, Bool.and_eq_true]
      refine ⟨ihPP (some cell), ?_⟩
      simp only [allNodesList_cons, allNodesList_nil, Bool.and_true]
      refine allNodes2_nontext _ _ _ _ _ rfl ?_
      simp only [allNodesList_cons, allNodesList_nil, Bool.and_true]
      exact allNodes2_text _ _ _ rfl
    · exact ihPP (some cell)

theorem noEmptyText_step_processListItem (fuel : Nat) (ih : NoEmptyTextInv fuel) :
    ∀ item, allNodes skipCodeBlock textNotEmpty (processListItem (fuel + 1) item) = true := by
  intro item
  rw [processListItem]
  exact allNodes2_nontext _ _ _ _ _ rfl (ih.2.2.2.2.2.1 [] (item.tokens.getD []))

theorem noEmptyText_step_listItemLoop (fuel : Nat) (ih : NoEmptyTextInv fuel) :
    ∀ pending rest, allNodesList skipCodeBlock textNotEmpty
      (listItemLoop (fuel + 1) pending rest) = true := by
  obtain ⟨ihTA, ihPP, ihPL, ihPT, ihPLI, ihLIL, ihPTI, ihTIL, ihINT, ihIIL, ihINS,
    ihPRES, ihINL⟩ := ih
  intro pending rest
  cases rest with
  | nil =>
    rw [listItemLoop]
    split
    · rfl
    · simp only [allNodesList_cons, allNodesList_nil, Bool.and_true]
      exact allNodes2_nontext _ _ _ _ _ rfl (ihINL _)
  | cons token rest =>
    rw [listItemLoop]
    split
    · exact ihLIL (pending ++ [token]) rest
    · rw [allNodesList_append, allNodesList_append, Bool.and_eq_true, Bool.and_eq_true]
      refine ⟨⟨?_, ?_⟩, ihLIL [] rest⟩
      · split
        · rfl
        · simp only [allNodesList_cons, allNodesList_nil, Bool.and_true]
          exact allNodes2_nontext _ _ _ _ _ rfl (ihINL _)
      · split
        · split
          · simp only [allNodesList_cons, allNodesList_nil, Bool.and_true]
            refine allNodes2_nontext _ _ _ _ _ rfl ?_
            rw [allNodesList_map_all]
            simp only [List.all_eq_true]
            intro nested _
            exact ihPTI nested
          · simp only [allNodesList_cons, allNodesList_nil, Bool.and_true]
            refine allNodes2_nontext _ _ _ _ _ (by cases token.ordered <;> rfl) ?_
            rw [allNodesList_map_all]
            simp only [List.all_eq_true]
            intro nested _
            exact ihPLI nested
        · exact ihTA (some [token])

theorem noEmptyText_step_processTaskItem (fuel : Nat) (ih : NoEmptyTextInv fuel) :
    ∀ item, allNodes skipCodeBlock textNotEmpty (processTaskItem (fuel + 1) item) = true := by
  intro item
  rw [processTaskItem]
  exact allNodes2_nontext _ _ _ _ _ rfl (ih.2.2.2.2.2.2.2.1 [] (item.tokens.getD []))

theorem noEmptyText_step_taskItemLoop (fuel : Nat) (ih : NoEmptyTextInv fuel) :
    ∀ pending rest, allNodesList skipCodeBlock textNotEmpty
      (taskItemLoop (fuel + 1) pending rest) = true := by
  obtain ⟨ihTA, ihPP, ihPL, ihPT, ihPLI, ihLIL, ihPTI, ihTIL, ihINT, ihIIL, ihINS,
    ihPRES, ihINL⟩ := ih
  intro pending rest
  cases rest with
  | nil =>
    rw [taskItemLoop]
    split
    · rfl
    · exact ihINL _
  | cons token rest =>
    rw [taskItemLoop]
    split
    · exact ihTIL (pending ++ [token]) rest
    · rw [allNodesList_append, allNodesList_append, Bool.and_eq_true, Bool.and_eq_true]
      refine ⟨⟨?_, ?_⟩, ihTIL [] rest⟩
      · split
        · rfl
        · exact ihINL _
      · split
        · exact ihTA (some [token])
        · rfl

theorem noEmptyText_step_interleavedNestedScan (fuel : Nat) (ih : NoEmptyTextInv fuel) :
    ∀ toks, (interleavedNestedScan (fuel + 1) toks).all
      (fun e => allNodes skipCodeBlock textNotEmpty e.node) = true := by
  obtain ⟨ihTA, ihPP, ihPL, ihPT, ihPLI, ihLIL, ihPTI, ihTIL, ihINT, ihIIL, ihINS,
    ihPRES, ihINL⟩ := ih
  intro toks
  cases toks with
  | nil => rfl
  | cons token rest =>
    rw [interleavedNestedScan]
    rw [List.all_append, Bool.and_eq_true]
    refine ⟨?_, ihINS rest⟩
    split
    · split
      · simp only [List.all_cons, Bool.and_eq_true]
        constructor
        · exact allNodes2_nontext _ _ _ _ _ rfl (nestedTaskItems_ok2 _ (ihINT token.items))
        · exact all_of_filter _ _ _ (ihINT token.items)
      · simp only [List.all_cons, List.all_nil, Bool.and_true, TaggedNode.node]
        refine allNodes2_nontext _ _ _ _ _ (by cases token.ordered <;> rfl) ?_
        rw [allNodesList_map_all]
        simp only [List.all_eq_true]
        intro nested _
        exact ihPLI nested
    · rfl

theorem noEmptyText_step_interleavedItemsLoop (fuel : Nat) (ih : NoEmptyTextInv fuel) :
    ∀ items, (interleavedItemsLoop (fuel + 1) items).all
      (fun e => allNodes skipCodeBlock textNotEmpty e.node) = true := by
  obtain ⟨ihTA, ihPP, ihPL, ihPT, ihPLI, ihLIL, ihPTI, ihTIL, ihINT, ihIIL, ihINS,
    ihPRES, ihINL⟩ := ih
  intro items
  cases items with
  | nil => rfl
  | cons item rest =>
    rw [interleavedItemsLoop]
    simp only [List.all_cons, List.all_append, Bool.and_eq_true]
    exact ⟨ihPTI item, ihINS _, ihIIL rest⟩

theorem noEmptyText_step_interleaved (fuel : Nat) (ih : NoEmptyTextInv fuel) :
    ∀ items, (processTaskListItemsInterleaved (fuel + 1) items).all
      (fun e => allNodes skipCodeBlock textNotEmpty e.node) = true := by
  intro items
  rw [processTaskListItemsInterleaved]
  exact ih.2.2.2.2.2.2.2.2.2.1 items

theorem noEmptyText_step_preservingOrder (fuel : Nat) (ih : NoEmptyTextInv fuel) :
    ∀ items, allNodesList skipCodeBlock textNotEmpty
      (processTaskListItemsWithExtractionPreservingOrder (fuel + 1) items) = true := by
  intro items
  rw [processTaskListItemsWithExtractionPreservingOrder]
  exact regroupTaskItems_ok2 _ [] (ih.2.2.2.2.2.2.2.2.1 items) rfl

/-- The no-empty-text invariant holds at every fuel. -/
theorem noEmptyTextInv : ∀ fuel, NoEmptyTextInv fuel := by
  intro fuel
  induction fuel with
  | zero =>
    exact ⟨fun _ => rfl, fun _ => rfl, fun _ _ => rfl, fun _ => rfl, fun _ => rfl,
      fun _ _ => rfl, fun _ => rfl, fun _ _ => rfl, fun _ => rfl, fun _ => rfl,
      fun _ => rfl, fun _ => rfl, fun _ => rfl⟩
  | succ fuel ih =>
    exact ⟨noEmptyText_step_tokensToAdf fuel ih,
      noEmptyText_step_processParagraph fuel ih,
      noEmptyText_step_paragraphLoop fuel ih,
      noEmptyText_step_processTable fuel ih,
      noEmptyText_step_processListItem fuel ih,
      noEmptyText_step_listItemLoop fuel ih,
      noEmptyText_step_processTaskItem fuel ih,
      noEmptyText_step_taskItemLoop fuel ih,
      noEmptyText_step_interleaved fuel ih,
      noEmptyText_step_interleavedItemsLoop fuel ih,
      noEmptyText_step_interleavedNestedScan fuel ih,
      noEmptyText_step_preservingOrder fuel ih,
      noEmptyText_step_inline fuel ih⟩

/-- C6, counterexample: a code-block token with empty literal text produces
a `codeBlock` whose content is a text node with the empty string — an empty
text node *is* emitted inside a code block. -/
theorem empty_text_in_codeBlock_counterexample :
    tokensToAdf 2 (some [codeTok none ""]) =
      [AdfNode.mk "codeBlock" none (some [tTextNode ""]) none none] := rfl

/-- C6, amended: outside of `codeBlock` content, no text node with empty
text is ever emitted — in paragraphs, headings, task items and table cells
empty text nodes are filtered out; only a `codeBlock` holding an empty
literal can contain one. -/
theorem no_empty_text_outside_codeBlock (fuel : Nat) (toks : Option (List Tok)) :
    allNodesList skipCodeBlock textNotEmpty (tokensToAdf fuel toks) = true :=
  (noEmptyTextInv fuel).1 toks

/-! ## Classifier and list-shape lemmas -/

theorem classifier_eq (items : List Tok) :
    (items.all (fun i => i.task) && items.any (fun i => i.task)) =
      (!items.isEmpty && items.all (fun i => i.task)) := by
  cases items with
  | nil => rfl
  | cons x xs =>
    cases hx : x.task <;> simp [List.all_cons, List.any_cons, hx]

theorem all_task_eq_false_of_mixed {items : List Tok}
    (h : ∃ i ∈ items, i.task = false) : items.all (fun i => i.task) = false := by
  rcases h with ⟨i, hi, hfalse⟩
  rcases Bool.eq_false_or_eq_true (items.all (fun i => i.task)) with ha | ha
  · have := List.all_eq_true.mp ha i hi
    rw [hfalse] at this
    exact Bool.noConfusion this
  · exact ha

/-- Shared unfolding: a `list` token that the classifier does not treat as a
task list produces exactly one ordinary `bulletList`/`orderedList` node. -/
theorem tokensToAdf_ordinary_list (fuel : Nat) (token : Tok) (hty : token.ty = "list")
    (hcls : (token.items.all (fun i => i.task) && token.items.any (fun i => i.task)) = false) :
    tokensToAdf (fuel + 1) (some [token]) =
      [AdfNode.mk (if token.ordered then "orderedList" else "bulletList")
        (if token.ordered then some [("order", AttrVal.nat (startOr1 token.start))] else none)
        (some (token.items.map (fun item => processListItem fuel item))) none none] := by
  rw [tokensToAdf]
  simp only [List.map_cons, List.map_nil, List.flatten_cons, List.flatten_nil,
    List.append_nil]
  rw [hty]
  simp only [hcls]
  rfl

/-- C3: the classifier condition (`every` item task-flagged `&&` `some` item
task-flagged) is exactly "at least one item and every item task-flagged" —
so an empty list is never classified as a task list — and a list with at
least one non-task item (or no items) yields a single ordinary
`bulletList`/`orderedList` node, never any task-list node. -/
theorem list_classifier_characterization (fuel : Nat) (token : Tok)
    (hty : token.ty = "list") :
    ((token.items.all (fun i => i.task) && token.items.any (fun i => i.task)) =
      (!token.items.isEmpty && token.items.all (fun i => i.task))) ∧
    ((∃ i ∈ token.items, i.task = false) ∨ token.items = [] →
      tokensToAdf (fuel + 1) (some [token]) =
        [AdfNode.mk (if token.ordered then "orderedList" else "bulletList")
          (if token.ordered then some [("order", AttrVal.nat (startOr1 token.start))] else none)
          (some (token.items.map (fun item => processListItem fuel item))) none none]) := by
  refine ⟨classifier_eq token.items, ?_⟩
  intro h
  refine tokensToAdf_ordinary_list fuel token hty ?_
  rcases h with h | h
  · rw [all_task_eq_false_of_mixed h, Bool.false_and]
  · rw [h]
    rfl

/-- Witness for C3 at a concrete mixed list: one task item and one plain
item produce a single `bulletList` with two ordinary `listItem` children. -/
theorem list_classifier_characterization_witness :
    tokensToAdf 7
      (some [bulletListTok [taskItemTok true [textTok "a"], plainItemTok [textTok "b"]]]) =
    [AdfNode.mk "bulletList" none
      (some [tListItem [tPara [tTextNode "a"]], tListItem [tPara [tTextNode "b"]]])
      none none] := by
  have h := (list_classifier_characterization 6
      (bulletListTok [taskItemTok true [textTok "a"], plainItemTok [textTok "b"]]) rfl).2
    (Or.inl ⟨plainItemTok [textTok "b"], List.Mem.tail _ (List.Mem.head _), rfl⟩)
  exact h.trans rfl

/-- C7, counterexample: an ordered list declaring start number `0` produces
`attrs.order = 1`, not `0` — `token.start || 1` treats a declared `0` as
falsy, so the claim fails for start number 0. -/
theorem ordered_list_start_zero_counterexample :
    tokensToAdf 6 (some [orderedListTok (some 0) [plainItemTok [textTok "a"]]]) =
      [AdfNode.mk "orderedList" (some [("order", AttrVal.nat 1)])
        (some [tListItem [tPara [tTextNode "a"]]]) none none] ∧ (1 : Nat) ≠ 0 :=
  ⟨rfl, by decide⟩

/-- C7, amended: for an ordinary ordered list the emitted `orderedList`
carries `attrs.order = token.start || 1`: the declared start number when it
is present and non-zero, and `1` when no start number is declared or the
declared start is `0`; `bulletList` nodes carry no attrs at all. -/
theorem ordered_list_start_attribute (fuel : Nat) (token : Tok) (hty : token.ty = "list")
    (hmix : ∃ i ∈ token.items, i.task = false) :
    (token.ordered = true →
      tokensToAdf (fuel + 1) (some [token]) =
        [AdfNode.mk "orderedList" (some [("order", AttrVal.nat (startOr1 token.start))])
          (some (token.items.map (fun item => processListItem fuel item))) none none]) ∧
    (token.ordered = false →
      tokensToAdf (fuel + 1) (some [token]) =
        [AdfNode.mk "bulletList" none
          (some (token.items.map (fun item => processListItem fuel item))) none none]) ∧
    (∀ n : Nat, n ≠ 0 → startOr1 (some n) = n) ∧
    startOr1 (some 0) = 1 ∧ startOr1 none = 1 := by
  have hbase := tokensToAdf_ordinary_list fuel token hty
    (by rw [all_task_eq_false_of_mixed hmix, Bool.false_and])
  refine ⟨?_, ?_, ?_, rfl, rfl⟩
  · intro hord
    rw [hbase, hord]
    simp
  · intro hord
    rw [hbase, hord]
    simp
  · intro n hn
    simp [startOr1, hn]

/-- Witness for C7 at a concrete ordered list with declared start 3. -/
theorem ordered_list_start_attribute_witness :
    tokensToAdf 7 (some [orderedListTok (some 3) [plainItemTok [textTok "a"]]]) =
      [AdfNode.mk "orderedList" (some [("order", AttrVal.nat 3)])
        (some [tListItem [tPara [tTextNode "a"]]]) none none] := by
  have h := (ordered_list_start_attribute 6 (orderedListTok (some 3) [plainItemTok [textTok "a"]]) rfl
    ⟨plainItemTok [textTok "a"], List.Mem.head _, rfl⟩).1 rfl
  exact h.trans rfl

/-- C8: a code-block token produces a `codeBlock` whose `language`
attribute is present exactly when a (non-empty) language was declared — no
placeholder default — and whose content is a single text node holding the
literal block text unchanged (no whitespace normalization). -/
theorem codeBlock_language_and_literal_text (fuel : Nat) (token : Tok)
    (hty : token.ty = "code") :
    tokensToAdf (fuel + 1) (some [token]) =
      [AdfNode.mk "codeBlock"
        (if langTruthy token.lang
         then some [("language", AttrVal.str (token.lang.getD ""))] else none)
        (some [AdfNode.mk "text" none none none (some (token.text.getD ""))]) none none] ∧
    (∀ l : String, token.lang = some l → l ≠ "" → langTruthy token.lang = true) ∧
    (token.lang = none → langTruthy token.lang = false) ∧
    (token.lang = some "" → langTruthy token.lang = false) := by
  refine ⟨?_, ?_, ?_, ?_⟩
  · rw [tokensToAdf]
    simp only [List.map_cons, List.map_nil, List.flatten_cons, List.flatten_nil,
      List.append_nil]
    rw [hty]
    rfl
  · intro l hl hne
    rw [hl]
    simp [langTruthy, hne]
  · intro hl
    rw [hl]
    rfl
  · intro hl
    rw [hl]
    rfl

/-- Witness for C8 at a concrete code block with language `ts` and literal
text ending in a newline (preserved byte-for-byte). -/
theorem codeBlock_language_and_literal_text_witness :
    tokensToAdf 2 (some [codeTok (some "ts") "let x = 1\n  y\n"]) =
      [AdfNode.mk "codeBlock" (some [("language", AttrVal.str "ts")])
        (some [tTextNode "let x = 1\n  y\n"]) none none] := by
  have h := (codeBlock_language_and_literal_text 1 (codeTok (some "ts") "let x = 1\n  y\n") rfl).1
  exact h.trans rfl

/-! ## Safe-text normalization: idempotence and newline-freeness -/

theorem collapse_head_of_nonspace (b : Char) (rest : List Char)
    (hb : isJsSpace b = false) :
    ∃ t, collapseWhitespace (b :: rest) = b :: t := by
  cases rest with
  | nil =>
    refine ⟨[], ?_⟩
    simp [collapseWhitespace, hb]
  | cons r rs =>
    refine ⟨collapseWhitespace (r :: rs), ?_⟩
    rw [collapseWhitespace]
    simp [hb]

theorem collapse_normed : ∀ l : List Char, normedB (collapseWhitespace l) = true
  | [] => rfl
  | [c] => by
    rw [collapseWhitespace]
    split
    · rfl
    · rename_i hc
      simp only [Bool.not_eq_true] at hc
      simp [normedB, hc]
  | a :: b :: rest => by
    rw [collapseWhitespace]
    split
    · exact collapse_normed (b :: rest)
    · rename_i hab
      simp only [Bool.and_eq_true, not_and, Bool.not_eq_true] at hab
      have ih := collapse_normed (b :: rest)
      by_cases ha : isJsSpace a = true
      · have hb : isJsSpace b = false := hab ha
        obtain ⟨t, ht⟩ := collapse_head_of_nonspace b rest hb
        rw [ht] at ih ⊢
        rw [ha]
        simp [normedB, ih, hb]
      · simp only [Bool.not_eq_true] at ha
        rw [ha]
        rcases hcol : collapseWhitespace (b :: rest) with _ | ⟨w, t⟩
        · simp [normedB, ha]
        · rw [hcol] at ih
          simp [normedB, ha, ih]

theorem collapse_of_normed : ∀ l : List Char, normedB l = true → collapseWhitespace l = l
  | [] => fun _ => rfl
  | [c] => by
    intro h
    simp only [normedB, Bool.or_eq_true, Bool.not_eq_true'] at h
    rw [collapseWhitespace]
    rcases h with h | h
    · simp [h]
    · simp only [beq_iff_eq] at h
      simp [h]
  | a :: b :: rest => by
    intro h
    simp only [normedB, Bool.and_eq_true, Bool.or_eq_true, Bool.not_eq_true'] at h
    obtain ⟨⟨ha, hab⟩, hrest⟩ := h
    rw [collapseWhitespace]
    have hab' : (isJsSpace a && isJsSpace b) = false := by
      simpa using hab
    rw [hab']
    simp only [if_false, Bool.false_eq_true]
    have hx : (if isJsSpace a then ' ' else a) = a := by
      rcases ha with ha | ha
      · simp [ha]
      · simp only [beq_iff_eq] at ha
        subst ha
        split <;> rfl
    rw [hx, collapse_of_normed (b :: rest) hrest]

theorem normed_mem : ∀ l : List Char, normedB l = true →
    ∀ c ∈ l, isJsSpace c = false ∨ c = ' '
  | [] => by intro _ c hc; cases hc
  | [d] => by
    intro h c hc
    simp only [List.mem_singleton] at hc
    subst hc
    simp only [normedB, Bool.or_eq_true, Bool.not_eq_true'] at h
    rcases h with h | h
    · exact Or.inl h
    · simp only [beq_iff_eq] at h
      exact Or.inr h
  | a :: b :: rest => by
    intro h c hc
    simp only [normedB, Bool.and_eq_true, Bool.or_eq_true, Bool.not_eq_true'] at h
    obtain ⟨⟨ha, _⟩, hrest⟩ := h
    rw [List.mem_cons] at hc
    rcases hc with rfl | hc
    · rcases ha with ha | ha
      · exact Or.inl ha
      · simp only [beq_iff_eq] at ha
        exact Or.inr ha
    · exact normed_mem (b :: rest) hrest c hc

theorem newline_not_mem_of_normed {l : List Char} (h : normedB l = true) : '\n' ∉ l := by
  intro hmem
  rcases normed_mem l h '\n' hmem with hn | hn
  · rw [show isJsSpace '\n' = true from rfl] at hn
    exact Bool.noConfusion hn
  · exact absurd hn (by decide)

theorem replaceNewlines_of_no_newline : ∀ {l : List Char}, '\n' ∉ l → replaceNewlines l = l
  | [], _ => rfl
  | c :: cs, h => by
    simp only [List.mem_cons, not_or] at h
    unfold replaceNewlines
    simp only [List.map_cons, List.cons.injEq]
    constructor
    · have hce : (c == '\n') = false := by
        simpa using fun hc : c = '\n' => h.1 hc.symm
      simp [hce]
    · exact replaceNewlines_of_no_newline h.2

theorem replaceNewlines_of_normed {l : List Char} (h : normedB l = true) :
    replaceNewlines l = l :=
  replaceNewlines_of_no_newline (newline_not_mem_of_normed h)

theorem stripTrailingNewline_of_normed {l : List Char} (h : normedB l = true) :
    stripTrailingNewline l = l := by
  unfold stripTrailingNewline
  have : (l.getLast? == some '\n') = false := by
    rcases hl : l.getLast? with _ | c
    · rfl
    · have hc := List.mem_of_getLast?_eq_some hl
      have := newline_not_mem_of_normed h
      simp only [beq_eq_false_iff_ne, ne_eq, Option.some.injEq]
      exact fun he => this (he ▸ hc)
  rw [this]
  simp

/-- C9: the safe-text normalization (strip one trailing newline, replace
newlines by spaces, collapse whitespace runs to single spaces) is
idempotent: normalizing an already-normalized string returns it
unchanged. -/
theorem safe_text_normalization_idempotent (s : String) :
    normalizeText (normalizeText s) = normalizeText s := by
  unfold normalizeText
  have hnormed := collapse_normed (replaceNewlines (stripTrailingNewline s.data))
  generalize collapseWhitespace (replaceNewlines (stripTrailingNewline s.data)) = l at hnormed
  have hdata : (String.mk l).data = l := rfl
  rw [hdata, stripTrailingNewline_of_normed hnormed, replaceNewlines_of_normed hnormed,
    collapse_of_normed l hnormed]

theorem collapse_no_newline (l : List Char) : '\n' ∉ collapseWhitespace l :=
  newline_not_mem_of_normed (collapse_normed l)

theorem normalizeText_no_newline (s : String) : noNewlineB (normalizeText s) = true := by
  show (collapseWhitespace (replaceNewlines (stripTrailingNewline s.data))).all
    (fun c => !(c == '\n')) = true
  simp only [List.all_eq_true]
  intro c hc
  have hnm := collapse_no_newline (replaceNewlines (stripTrailingNewline s.data))
  simp only [Bool.not_eq_true', beq_eq_false_iff_ne, ne_eq]
  exact fun he => hnm (he ▸ hc)

theorem normalizeOwnText_no_newline (token : Tok) :
    noNewlineB (normalizeOwnText token) = true := by
  unfold normalizeOwnText
  split
  · exact normalizeText_no_newline _
  · rfl

theorem getSafeText_no_newline : ∀ (fuel : Nat) (token : Tok),
    noNewlineB (getSafeText fuel token) = true
  | 0, _ => rfl
  | fuel + 1, token => by
    rw [getSafeText]
    split
    · split
      · exact getSafeText_no_newline fuel _
      · exact normalizeOwnText_no_newline token
    · exact normalizeOwnText_no_newline token

theorem inline_text_no_newline_aux : ∀ (fuel : Nat) (toks : Option (List Tok)),
    (inlineToAdf fuel toks).all (fun n => noNewlineB (n.text.getD "")) = true
  | 0, _ => rfl
  | _ + 1, none => rfl
  | fuel + 1, some tokens => by
    rw [inlineToAdf]
    simp only [List.all_eq_true]
    intro n hn
    have hmem := List.mem_of_mem_filter hn
    rw [List.mem_flatten] at hmem
    obtain ⟨l', hl', hnl⟩ := hmem
    rw [List.mem_map] at hl'
    obtain ⟨token, htok, rfl⟩ := hl'
    split at hnl
    · split at hnl
      · rename_i ts hts
        have := inline_text_no_newline_aux fuel (some ts)
        exact List.all_eq_true.mp this n hnl
      · simp only [List.mem_singleton] at hnl
        subst hnl
        exact getSafeText_no_newline fuel token
    · rw [List.mem_map] at hnl
      obtain ⟨t, _, rfl⟩ := hnl
      exact getSafeText_no_newline fuel t
    · rw [List.mem_map] at hnl
      obtain ⟨t, _, rfl⟩ := hnl
      exact getSafeText_no_newline fuel t
    · rw [List.mem_map] at hnl
      obtain ⟨t, _, rfl⟩ := hnl
      exact getSafeText_no_newline fuel t
    · simp only [List.mem_singleton] at hnl
      subst hnl
      exact getSafeText_no_newline fuel token
    · simp only [List.mem_singleton] at hnl
      subst hnl
      exact getSafeText_no_newline fuel token
    · simp only [List.mem_singleton] at hnl
      subst hnl
      rfl
    · cases hnl

/-- C10: every text node produced by the Inline Content Builder — the text
nodes inside paragraphs, headings, task items and table cells, as opposed
to code blocks — has text containing no newline character, for every input
inline token sequence, because every such text goes through safe-text
extraction, which replaces all newlines. -/
theorem inline_text_has_no_newline (fuel : Nat) (toks : Option (List Tok)) :
    (inlineToAdf fuel toks).all (fun n => noNewlineB (n.text.getD "")) = true :=
  inline_text_no_newline_aux fuel toks

end Marklassian
